import Mathlib

/-!
Verification development for the `@graphql-toolkit/core` package
(`src/index.esm.js`): a shallow embedding of its data model and of the
operations named by the specification, together with theorems settling the
specification's claims.

Conventions of the embedding:
* machine integers are modelled as `Int` with explicit reduction mod 2^32
  where JavaScript coerces to 32-bit integers;
* fallible code (`throw`) is modelled with `Except String`, the string being
  the thrown message; a JavaScript `TypeError` arising from accessing a
  property of `undefined` is modelled as an error message starting with
  "TypeError"; a stack overflow of an unbounded recursion is modelled with a
  fuel parameter whose exhaustion yields a "RangeError" message;
* the GraphQL AST (an external library from the repository's point of view)
  is modelled structurally with exactly the fields the code reads
  (`name.value` of a named node is modelled as a plain `String`);
* lodash helpers (`keyBy`, `reverse`, `uniqBy`, `includes`, `flatten`,
  `groupBy`, `isEqual`) are modelled by their documented semantics; in
  particular `reverse` MUTATES its argument, which the embedding makes
  explicit by returning the new list.
-/

/-- `name.value` of an applied directive node (`@foo`); the definition-pool
completer only ever reads the directive's name. -/
structure DirectiveNode where
  name : String
  deriving DecidableEq, Repr

/-- A GraphQL type reference (`TypeNode`): named type, list type or
non-null wrapper. -/
inductive TypeNode where
  | named (name : String)
  | list (t : TypeNode)
  | nonNull (t : TypeNode)
  deriving DecidableEq, Repr

/-- `InputValueDefinitionNode`: an argument or input-object field. -/
structure InputValueDef where
  name : String
  type : TypeNode
  directives : List DirectiveNode
  deriving DecidableEq, Repr

/-- `FieldDefinitionNode` of an object or interface type. -/
structure FieldDefNode where
  name : String
  arguments : List InputValueDef
  type : TypeNode
  directives : List DirectiveNode
  deriving DecidableEq, Repr

/-- `EnumValueDefinitionNode`. -/
structure EnumValueNode where
  name : String
  directives : List DirectiveNode
  deriving DecidableEq, Repr

/-- A node of a selection set.  `collectNewTypeDefinitions` distinguishes only
fragment spreads from nodes that may carry a nested selection set (fields and
inline fragments), so the embedding uses those two constructors.  A field
without a selection set is `node dirs none`. -/
inductive SelectionNode where
  | fragmentSpread (name : String) (directives : List DirectiveNode)
  | node (directives : List DirectiveNode) (selectionSet : Option (List SelectionNode))

mutual

def SelectionNode.decEq : (a b : SelectionNode) → Decidable (a = b)
  | .fragmentSpread n1 d1, .fragmentSpread n2 d2 =>
    match inferInstanceAs (Decidable (n1 = n2)), inferInstanceAs (Decidable (d1 = d2)) with
    | isTrue h1, isTrue h2 => isTrue (by rw [h1, h2])
    | isFalse h1, _ => isFalse (by intro h; cases h; exact h1 rfl)
    | _, isFalse h2 => isFalse (by intro h; cases h; exact h2 rfl)
  | .node d1 none, .node d2 none =>
    match inferInstanceAs (Decidable (d1 = d2)) with
    | isTrue h1 => isTrue (by rw [h1])
    | isFalse h1 => isFalse (by intro h; cases h; exact h1 rfl)
  | .node d1 (some l1), .node d2 (some l2) =>
    match inferInstanceAs (Decidable (d1 = d2)), SelectionNode.decEqList l1 l2 with
    | isTrue h1, isTrue h2 => isTrue (by rw [h1, h2])
    | isFalse h1, _ => isFalse (by intro h; cases h; exact h1 rfl)
    | _, isFalse h2 => isFalse (by intro h; cases h; exact h2 rfl)
  | .fragmentSpread _ _, .node _ _ => isFalse (by intro h; cases h)
  | .node _ _, .fragmentSpread _ _ => isFalse (by intro h; cases h)
  | .node _ none, .node _ (some _) => isFalse (by intro h; cases h)
  | .node _ (some _), .node _ none => isFalse (by intro h; cases h)

def SelectionNode.decEqList : (a b : List SelectionNode) → Decidable (a = b)
  | [], [] => isTrue rfl
  | x :: xs, y :: ys =>
    match SelectionNode.decEq x y, SelectionNode.decEqList xs ys with
    | isTrue h1, isTrue h2 => isTrue (by rw [h1, h2])
    | isFalse h1, _ => isFalse (by intro h; cases h; exact h1 rfl)
    | _, isFalse h2 => isFalse (by intro h; cases h; exact h2 rfl)
  | [], _ :: _ => isFalse (by intro h; cases h)
  | _ :: _, [] => isFalse (by intro h; cases h)

end

instance : DecidableEq SelectionNode := SelectionNode.decEq

/-- `DefinitionNode`: the definition kinds inspected by the code.  Interface
lists, union member types and root-operation types are represented by the
`name.value` of their `NamedTypeNode`, the only field the code reads.
Operation definitions are modelled with a name present (the code evaluates
`'name' in d ? d.name.value : 'schema'`, and every node kind except
`SchemaDefinition` carries a `name` property). -/
inductive Definition where
  | scalarTypeDef (name : String) (directives : List DirectiveNode)
  | objectTypeDef (name : String) (interfaces : List String)
      (directives : List DirectiveNode) (fields : List FieldDefNode)
  | interfaceTypeDef (name : String) (directives : List DirectiveNode)
      (fields : List FieldDefNode)
  | unionTypeDef (name : String) (directives : List DirectiveNode)
      (types : List String)
  | enumTypeDef (name : String) (directives : List DirectiveNode)
      (values : List EnumValueNode)
  | inputObjectTypeDef (name : String) (directives : List DirectiveNode)
      (fields : List InputValueDef)
  | directiveDef (name : String) (arguments : List InputValueDef)
  | schemaDef (directives : List DirectiveNode) (operationTypes : List String)
  | operationDef (name : String) (directives : List DirectiveNode)
      (selectionSet : List SelectionNode)
  | fragmentDef (name : String) (directives : List DirectiveNode)
      (selectionSet : List SelectionNode)
  deriving DecidableEq

namespace Definition

/-- The key used by `keyBy` and by `visitedDefinitions`:
`'name' in d ? d.name.value : 'schema'`. -/
def defKey : Definition → String
  | .scalarTypeDef n _ => n
  | .objectTypeDef n _ _ _ => n
  | .interfaceTypeDef n _ _ => n
  | .unionTypeDef n _ _ => n
  | .enumTypeDef n _ _ => n
  | .inputObjectTypeDef n _ _ => n
  | .directiveDef n _ => n
  | .schemaDef _ _ => "schema"
  | .operationDef n _ _ => n
  | .fragmentDef n _ _ => n

/-- The key used by `uniqBy(definitionPool, 'name.value')`: the lodash
property path yields `undefined` (here `none`) on a `SchemaDefinition`,
which has no `name`. -/
def uniqKey : Definition → Option String
  | .schemaDef _ _ => none
  | d => some d.defKey

/-- The `directives` property of a definition node (every modelled kind except
`DirectiveDefinition` carries one; for `DirectiveDefinition` the code never
reads it). -/
def directivesOf : Definition → List DirectiveNode
  | .scalarTypeDef _ ds => ds
  | .objectTypeDef _ _ ds _ => ds
  | .interfaceTypeDef _ ds _ => ds
  | .unionTypeDef _ ds _ => ds
  | .enumTypeDef _ ds _ => ds
  | .inputObjectTypeDef _ ds _ => ds
  | .directiveDef _ _ => []
  | .schemaDef ds _ => ds
  | .operationDef _ ds _ => ds
  | .fragmentDef _ ds _ => ds

end Definition

/-- `builtinTypes` from the source. -/
def builtinTypes : List String := ["String", "Float", "Int", "Boolean", "ID", "Upload"]

/-- `builtinDirectives` from the source. -/
def builtinDirectives : List String :=
  ["deprecated", "skip", "include", "cacheControl", "key", "external",
   "requires", "provides", "connection", "client"]

/-- `getNamedType`: peel `ListType` / `NonNullType` wrappers down to the
`NamedTypeNode` and return its name. -/
def getNamedType : TypeNode → String
  | .named n => n
  | .list t => getNamedType t
  | .nonNull t => getNamedType t

/-- Lookup in the object built by lodash `keyBy(l, defKey)`: when several
elements share a key, the LAST one wins (lodash `keyBy` overwrites). -/
def keyByLookup (l : List Definition) (k : String) : Option Definition :=
  l.foldl (fun acc d => if d.defKey = k then some d else acc) none

/-- One iteration's `const schemaMap = keyBy(reverse(allDefinitions), ...)`.
lodash `reverse` mutates `allDefinitions` in place, so the step returns both
the new contents of `allDefinitions` (the reversal) and the lookup map built
over those new contents. -/
def buildSchemaMap (allDefinitions : List Definition) :
    List Definition × (String → Option Definition) :=
  let reversed := allDefinitions.reverse
  (reversed, keyByLookup reversed)

/-- `definitionPool.some((d) => 'name' in d && d.name.value === n)`. -/
def poolHasName (pool : List Definition) (n : String) : Bool :=
  pool.any fun d => d.uniqKey = some n

/-- `uniqBy(l, 'name.value')`: keep the first element for each key; all
`SchemaDefinition`s share the key `undefined`. -/
def uniqByNameValue (l : List Definition) : List Definition :=
  l.foldl (fun acc d => if acc.any (fun x => x.uniqKey = d.uniqKey) then acc else acc ++ [d]) []

/-- The projection of a `FieldDefinitionNode` or `InputValueDefinitionNode`
to the three properties `collectNode` reads: `name`, `type`, `directives`. -/
structure TypedNode where
  name : String
  type : TypeNode
  directives : List DirectiveNode
  deriving DecidableEq, Repr

def FieldDefNode.toTypedNode (f : FieldDefNode) : TypedNode :=
  ⟨f.name, f.type, f.directives⟩

def InputValueDef.toTypedNode (iv : InputValueDef) : TypedNode :=
  ⟨iv.name, iv.type, iv.directives⟩

/-!
The nested helpers `collectNode` and `collectDirective` of
`collectNewTypeDefinitions` are mutually recursive through the schema-map
lookups (`collectDirective` walks the arguments of the directive definition it
found, and those arguments' directives are collected in turn).  The JavaScript
recursion is unbounded — two directive definitions whose arguments carry each
other's directive produce a stack overflow — so the embedding threads a fuel
parameter whose exhaustion models the `RangeError`.  Fuel is consumed only on
the lookup edge (`collectDirective` recursing into a found directive
definition's arguments), so runs that never take that edge are independent of
the fuel.  The accumulator models the closed-over `newTypeDefinitions` array;
the pool and the map are fixed for the duration of one call, exactly as in the
source.  A lookup that yields a node without an `arguments` property models
JavaScript's `undefined.forEach` crash as a "TypeError" message.
-/

mutual

/-- `collectNode`: push the field's named type when it is neither pooled nor a
built-in scalar (looking it up in the schema map, a miss being fatal), then
collect the node's directives.  Fuel models the JavaScript call stack and is
consumed by every (mutually) recursive call; its exhaustion models the
`RangeError` of the unbounded `collectDirective` / `collectNode` recursion. -/
def collectNodeM : Nat → List Definition → (String → Option Definition) →
    List Definition → TypedNode → Except String (List Definition)
  | 0, _, _, _, _ => Except.error "RangeError: Maximum call stack size exceeded"
  | Nat.succ fuel, pool, m, acc, node =>
    let nodeTypeName := getNamedType node.type
    match
      (if ¬ poolHasName pool nodeTypeName ∧ ¬ builtinTypes.contains nodeTypeName then
        match m nodeTypeName with
        | none => Except.error ("Field " ++ node.name ++ ": Couldn't find type " ++
            nodeTypeName ++ " in any of the schemas.")
        | some argTypeMatch => Except.ok (acc ++ [argTypeMatch])
      else Except.ok acc) with
    | Except.error e => Except.error e
    | Except.ok acc1 => collectDirectivesM fuel pool m acc1 node.directives
termination_by structural fuel _ _ _ _ => fuel

/-- `node.directives.forEach(collectDirective)`. -/
def collectDirectivesM : Nat → List Definition → (String → Option Definition) →
    List Definition → List DirectiveNode → Except String (List Definition)
  | _, _, _, acc, [] => Except.ok acc
  | 0, _, _, _, _ :: _ => Except.error "RangeError: Maximum call stack size exceeded"
  | Nat.succ fuel, pool, m, acc, dir :: rest =>
    match collectDirectiveM fuel pool m acc dir with
    | Except.error e => Except.error e
    | Except.ok acc1 => collectDirectivesM fuel pool m acc1 rest
termination_by structural fuel _ _ _ _ => fuel

/-- `collectDirective`: when the directive is neither pooled nor built-in,
look it up (a miss is fatal), collect the found definition's arguments, then
push the found definition. -/
def collectDirectiveM : Nat → List Definition → (String → Option Definition) →
    List Definition → DirectiveNode → Except String (List Definition)
  | 0, _, _, _, _ => Except.error "RangeError: Maximum call stack size exceeded"
  | Nat.succ fuel, pool, m, acc, dir =>
    if ¬ poolHasName pool dir.name ∧ ¬ builtinDirectives.contains dir.name then
      match m dir.name with
      | none => Except.error ("Directive " ++ dir.name ++ ": Couldn't find type " ++
          dir.name ++ " in any of the schemas.")
      | some found =>
        match found with
        | Definition.directiveDef n args =>
          match collectNodesM fuel pool m acc (args.map InputValueDef.toTypedNode) with
          | Except.error e => Except.error e
          | Except.ok acc1 => Except.ok (acc1 ++ [Definition.directiveDef n args])
        | _ => Except.error "TypeError: directive.arguments is undefined"
    else Except.ok acc
termination_by structural fuel _ _ _ _ => fuel

/-- A `forEach(collectNode)` loop. -/
def collectNodesM : Nat → List Definition → (String → Option Definition) →
    List Definition → List TypedNode → Except String (List Definition)
  | _, _, _, acc, [] => Except.ok acc
  | 0, _, _, _, _ :: _ => Except.error "RangeError: Maximum call stack size exceeded"
  | Nat.succ fuel, pool, m, acc, n :: rest =>
    match collectNodeM fuel pool m acc n with
    | Except.error e => Except.error e
    | Except.ok acc1 => collectNodesM fuel pool m acc1 rest
termination_by structural fuel _ _ _ _ => fuel

end

mutual

/-- `collectFragments`: a fragment spread is resolved against the pool and the
schema map (a miss is fatal); any other selection node with a nested selection
set is walked recursively, re-collecting the parent node's directives once per
child selection, exactly as the source's nested loops do. -/
def collectFragmentsM (fuel : Nat) (pool : List Definition) (m : String → Option Definition)
    (acc : List Definition) (sel : SelectionNode) : Except String (List Definition) :=
  match sel with
  | .fragmentSpread fragmentName _ =>
    if ¬ poolHasName pool fragmentName then
      match m fragmentName with
      | none => Except.error ("Fragment " ++ fragmentName ++ ": Couldn't find fragment " ++
          fragmentName ++ " in any of the documents.")
      | some fragmentMatch => Except.ok (acc ++ [fragmentMatch])
    else Except.ok acc
  | .node _ none => Except.ok acc
  | .node dirs (some sels) => collectFragmentsListM fuel pool m acc dirs sels

/-- The `for (const selection of node.selectionSet.selections)` loop inside
`collectFragments`. -/
def collectFragmentsListM (fuel : Nat) (pool : List Definition) (m : String → Option Definition)
    (acc : List Definition) (parentDirs : List DirectiveNode) (sels : List SelectionNode) :
    Except String (List Definition) :=
  match sels with
  | [] => Except.ok acc
  | s :: rest =>
    match collectDirectivesM fuel pool m acc parentDirs with
    | Except.error e => Except.error e
    | Except.ok acc1 =>
      match collectFragmentsM fuel pool m acc1 s with
      | Except.error e => Except.error e
      | Except.ok acc2 => collectFragmentsListM fuel pool m acc2 parentDirs rest

end

/-- The `interfaceImplementations` filter: every object type in
`allDefinitions` whose declared interface list contains `interfaceName`. -/
def interfaceImplementations (allDefinitions : List Definition) (interfaceName : String) :
    List Definition :=
  allDefinitions.filter fun d =>
    match d with
    | .objectTypeDef _ interfaces _ _ => interfaces.contains interfaceName
    | _ => false

/-- `collectNewTypeDefinitions(allDefinitions, definitionPool, newDefinition,
schemaMap)`: processes a single definition and returns the list of definitions
pushed onto the closed-over `newTypeDefinitions` accumulator, or the thrown
error.  The pool and the map are read-only during the call. -/
def collectNewTypeDefinitions (fuel : Nat) (allDefinitions pool : List Definition)
    (m : String → Option Definition) (newDefinition : Definition) :
    Except String (List Definition) := do
  let acc : List Definition ← (match newDefinition with
    | .directiveDef _ _ => Except.ok []
    | d => collectDirectivesM fuel pool m [] d.directivesOf)
  match newDefinition with
  | .enumTypeDef _ _ values =>
    values.foldlM (fun acc v => collectDirectivesM fuel pool m acc v.directives) acc
  | .inputObjectTypeDef _ _ fields =>
    collectNodesM fuel pool m acc (fields.map InputValueDef.toTypedNode)
  | .interfaceTypeDef interfaceName _ fields => do
    let acc1 ← collectNodesM fuel pool m acc (fields.map FieldDefNode.toTypedNode)
    Except.ok (acc1 ++ interfaceImplementations allDefinitions interfaceName)
  | .unionTypeDef _ _ types =>
    types.foldlM (fun acc typeName =>
      if ¬ poolHasName pool typeName then
        match m typeName with
        | none => Except.error ("Couldn't find type " ++ typeName ++ " in any of the schemas.")
        | some typeMatch => Except.ok (acc ++ [typeMatch])
      else Except.ok acc) acc
  | .objectTypeDef _ interfaces _ fields => do
    let acc1 ← interfaces.foldlM (fun acc interfaceName =>
      if ¬ poolHasName pool interfaceName then
        match m interfaceName with
        | none => Except.error ("Couldn't find interface " ++ interfaceName ++
            " in any of the schemas.")
        | some interfaceMatch => Except.ok (acc ++ [interfaceMatch])
      else Except.ok acc) acc
    fields.foldlM (fun acc field => do
      let acc2 ← collectNodeM fuel pool m acc field.toTypedNode
      collectNodesM fuel pool m acc2 (field.arguments.map InputValueDef.toTypedNode)) acc1
  | .schemaDef _ operationTypes =>
    operationTypes.foldlM (fun acc typeName =>
      if ¬ poolHasName pool typeName then
        match m typeName with
        | none => Except.error ("Couldn't find type " ++ typeName ++ " in any of the schemas.")
        | some typeMatch => Except.ok (acc ++ [typeMatch])
      else Except.ok acc) acc
  | .operationDef _ _ selectionSet =>
    selectionSet.foldlM (fun acc sel => collectFragmentsM fuel pool m acc sel) acc
  | .fragmentDef _ _ selectionSet =>
    selectionSet.foldlM (fun acc sel => collectFragmentsM fuel pool m acc sel) acc
  | _ => Except.ok acc

/-!
Weight functions: computable lower bounds on the fuel needed by the happy
path (every reference already satisfied by the pool), used to show that a
sufficiently fuelled run of an already-closed pool is a no-op.
-/

def wNode (n : TypedNode) : Nat := n.directives.length + 2

def wNodes (ns : List TypedNode) : Nat :=
  ns.foldr (fun n a => wNode n + a) 0 + ns.length + 1

mutual

def wSel : SelectionNode → Nat
  | .fragmentSpread _ _ => 0
  | .node _ none => 0
  | .node ds (some sels) => wSels ds sels

def wSels (ds : List DirectiveNode) : List SelectionNode → Nat
  | [] => 0
  | s :: rest => (ds.length + 1) + wSel s + wSels ds rest

end

/-- Fuel needed to process one definition whose references are all already
satisfied. -/
def wDef (d : Definition) : Nat :=
  (d.directivesOf.length + 1) +
  (match d with
    | .enumTypeDef _ _ values => values.foldr (fun v a => v.directives.length + 1 + a) 0
    | .inputObjectTypeDef _ _ fields => wNodes (fields.map InputValueDef.toTypedNode)
    | .interfaceTypeDef _ _ fields => wNodes (fields.map FieldDefNode.toTypedNode)
    | .objectTypeDef _ _ _ fields =>
      fields.foldr (fun f a => wNode f.toTypedNode +
        wNodes (f.arguments.map InputValueDef.toTypedNode) + a) 0
    | .operationDef _ _ sels => sels.foldr (fun s a => wSel s + a) 0
    | .fragmentDef _ _ sels => sels.foldr (fun s a => wSel s + a) 0
    | _ => 0) + 1

mutual

/-- Size of a selection node: an upper bound on the number of worklist
appends its processing can perform, per unit of directive-walk budget. -/
def szSel : SelectionNode → Nat
  | .fragmentSpread _ _ => 1
  | .node _ none => 1
  | .node _ (some sels) => szSels sels + 1

def szSels : List SelectionNode → Nat
  | [] => 0
  | s :: rest => szSel s + szSels rest + 1

end

/-- A per-definition size: the number of top-level reference slots whose
processing by `collectNewTypeDefinitions` can append to the worklist
(each slot appends at most `2 ^ (fuel + 1)` entries, plus the interface
implementations, bounded separately). -/
def szD (d : Definition) : Nat :=
  match d with
  | .enumTypeDef _ _ values => values.length
  | .inputObjectTypeDef _ _ _ => 1
  | .interfaceTypeDef _ _ _ => 1
  | .unionTypeDef _ _ types => types.length
  | .objectTypeDef _ ifs _ fields => ifs.length + fields.length
  | .schemaDef _ ops => ops.length
  | .operationDef _ _ sels => sels.length * (sels.foldr (fun s a => szSel s + a) 0 + 1)
  | .fragmentDef _ _ sels => sels.length * (sels.foldr (fun s a => szSel s + a) 0 + 1)
  | _ => 0

def szSum (l : List Definition) : Nat := l.foldr (fun d a => szD d + a) 0

/-- The mutable state of `completeDefinitionPool`'s worklist loop:
`allDefinitions` (reversed in place by every iteration), the growing
`definitionPool`, the worklist `newTypeDefinitions`, and the keys recorded in
`visitedDefinitions`. -/
structure PoolLoopState where
  all : List Definition
  pool : List Definition
  wl : List Definition
  visited : List String
  deriving DecidableEq

/-- One full run of the `while (newTypeDefinitions.length > 0)` loop, with an
iteration-count fuel (the loop always terminates on finite inputs — each
productive iteration marks a fresh key — but the bound is justified separately;
fuel exhaustion is reported as a distinguished error message that no modelled
`throw` produces). -/
def completeLoop (collectFuel : Nat) : Nat → PoolLoopState → Except String PoolLoopState
  | 0, _ => Except.error "model: loop fuel exhausted"
  | Nat.succ n, s =>
    match s.wl with
    | [] => Except.ok s
    | newDefinition :: rest =>
      let step := buildSchemaMap s.all
      let defName := newDefinition.defKey
      if s.visited.contains defName then
        completeLoop collectFuel n { s with all := step.1, wl := rest }
      else
        match collectNewTypeDefinitions collectFuel step.1 s.pool step.2 newDefinition with
        | Except.error e => Except.error e
        | Except.ok collected =>
          completeLoop collectFuel n
            { all := step.1
              pool := s.pool ++ collected
              wl := rest ++ collected
              visited := s.visited ++ [defName] }

/-- Fuel for the nested `collectNode` / `collectDirective` recursion.  Fuel is
consumed only when a missing directive's definition is entered, and in any
terminating JavaScript run the active chain of entered directive definitions
is duplicate-free, hence bounded by `all.length`; the formula is a generous
over-approximation of that bound. -/
def collectFuelFor (all pool wl : List Definition) : Nat :=
  (all ++ pool ++ wl).foldr (fun d a => wDef d + a) 0 +
    all.length + pool.length + wl.length + 8

/-- Fuel for the worklist loop.  Every iteration pops one entry; entries are
appended only by productive iterations (fresh key, which is then marked
visited); every key ever popped belongs to the keys of `all ++ wl` (appended
definitions come from the schema map or the implementations filter, both
drawn from `allDefinitions`); and one productive iteration appends at most
`(szD d + 1) * 2 ^ (collectFuel + 1) + all.length` entries (each recursive
step of the collect walk consumes fuel and appends at most one definition).
`completeLoop_enough` below proves this fuel can never be exhausted, so the
model's loop returns normally exactly when the JavaScript `while` loop
does. -/
def loopFuelFor (all pool wl : List Definition) : Nat :=
  wl.length + 1 + (((all ++ wl).map Definition.defKey).dedup).length *
    ((szSum (all ++ wl) + 1) * 2 ^ (collectFuelFor all pool wl + 1) +
      (all ++ wl).length + 2)

/-- `completeDefinitionPool(allDefinitions, definitionPool, newTypeDefinitions)`
from the source: run the worklist loop, then deduplicate the pool by
`name.value` keeping first occurrences. -/
def completeDefinitionPool (allDefinitions definitionPool newTypeDefinitions : List Definition) :
    Except String (List Definition) :=
  match completeLoop (collectFuelFor allDefinitions definitionPool newTypeDefinitions)
      (loopFuelFor allDefinitions definitionPool newTypeDefinitions)
      ⟨allDefinitions, definitionPool, newTypeDefinitions, []⟩ with
  | Except.error e => Except.error e
  | Except.ok s => Except.ok (uniqByNameValue s.pool)

/-!
## Referenced identities

To state the closure claims we compute, for a definition, the list of
identities its processing by `collectNewTypeDefinitions` checks against the
pool: named types of fields and arguments (which may escape through the
built-in scalar list), applied directives (which may escape through the
built-in directive list), and the `hard` references — declared interfaces,
union members, root operation types, and reachable fragment spreads — which
have no built-in escape.
-/

inductive RefClass where
  | typeRef
  | directiveRef
  | hardRef
  deriving DecidableEq, Repr

structure Ref where
  cls : RefClass
  name : String
  deriving DecidableEq, Repr

def dirRefs (ds : List DirectiveNode) : List Ref :=
  ds.map fun dn => ⟨RefClass.directiveRef, dn.name⟩

mutual

/-- The identities checked by `collectFragments` on one selection node. -/
def refsOfSelection : SelectionNode → List Ref
  | .fragmentSpread n _ => [⟨RefClass.hardRef, n⟩]
  | .node _ none => []
  | .node dirs (some sels) => refsOfSelections dirs sels

def refsOfSelections (parentDirs : List DirectiveNode) : List SelectionNode → List Ref
  | [] => []
  | s :: rest => dirRefs parentDirs ++ refsOfSelection s ++ refsOfSelections parentDirs rest

end

/-- A reference is satisfied by a pool when a named definition with that name
is present, or the reference escapes through the applicable built-in list. -/
def refSatB (pool : List Definition) (r : Ref) : Bool :=
  poolHasName pool r.name ||
  (decide (r.cls = RefClass.typeRef) && builtinTypes.contains r.name) ||
  (decide (r.cls = RefClass.directiveRef) && builtinDirectives.contains r.name)

/-- A reference the processing can resolve without throwing: satisfied by the
pool or matched in the lookup map. -/
def matchableB (pool : List Definition) (m : String → Option Definition) (r : Ref) : Bool :=
  refSatB pool r || (m r.name).isSome

/-- A lookup map each of whose values carries the key it is filed under —
true of every `keyBy`-built map. -/
def MapKeyed (m : String → Option Definition) : Prop :=
  ∀ k d, m k = some d → d.defKey = k

theorem poolHasName_append (a b : List Definition) (n : String) :
    poolHasName (a ++ b) n = (poolHasName a n || poolHasName b n) := by
  simp [poolHasName, List.any_append]

theorem poolHasName_mono {pool : List Definition} {n : String} (t : List Definition)
    (h : poolHasName pool n = true) : poolHasName (pool ++ t) n = true := by
  rw [poolHasName_append, h, Bool.true_or]

theorem refSatB_mono {pool : List Definition} {r : Ref} (t : List Definition)
    (h : refSatB pool r = true) : refSatB (pool ++ t) r = true := by
  unfold refSatB at h ⊢
  rcases Bool.or_eq_true_iff.mp h with h1 | h2
  · rcases Bool.or_eq_true_iff.mp h1 with ha | hb
    · rw [poolHasName_mono t ha]
      rfl
    · rw [hb]
      simp
  · rw [h2]
    simp

theorem uniqKey_of_defKey_ne {d : Definition} (h : d.defKey ≠ "schema") :
    d.uniqKey = some d.defKey := by
  cases d with
  | schemaDef ds ops => exact absurd rfl h
  | _ => rfl

theorem poolHasName_of_mem {pool : List Definition} {d : Definition} {n : String}
    (hd : d ∈ pool) (hk : d.uniqKey = some n) : poolHasName pool n = true := by
  simp only [poolHasName, List.any_eq_true]
  exact ⟨d, hd, by simp [hk]⟩

mutual

theorem collectNodeM_mono : ∀ (fuel : Nat) (pool : List Definition)
    (m : String → Option Definition) (acc : List Definition) (node : TypedNode)
    (acc' : List Definition), collectNodeM fuel pool m acc node = Except.ok acc' →
    ∃ t, acc' = acc ++ t
  | 0, pool, m, acc, node, acc', h => by
    rw [collectNodeM] at h
    exact absurd h (by simp)
  | Nat.succ fuel, pool, m, acc, node, acc', h => by
    rw [collectNodeM] at h
    split at h
    · exact absurd h (by simp)
    · rename_i acc1 hstep
      rcases collectDirectivesM_mono fuel pool m acc1 node.directives acc' h with ⟨t, ht⟩
      split at hstep
      · split at hstep
        · exact absurd hstep (by simp)
        · rename_i found hm
          cases hstep
          exact ⟨[found] ++ t, by rw [ht, List.append_assoc]⟩
      · cases hstep
        exact ⟨t, ht⟩
termination_by fuel _ _ _ _ _ _ => fuel

theorem collectDirectivesM_mono : ∀ (fuel : Nat) (pool : List Definition)
    (m : String → Option Definition) (acc : List Definition) (dirs : List DirectiveNode)
    (acc' : List Definition), collectDirectivesM fuel pool m acc dirs = Except.ok acc' →
    ∃ t, acc' = acc ++ t
  | fuel, pool, m, acc, [], acc', h => by
    rw [collectDirectivesM] at h
    cases h
    exact ⟨[], by simp⟩
  | 0, pool, m, acc, dir :: rest, acc', h => by
    rw [collectDirectivesM] at h
    exact absurd h (by simp)
  | Nat.succ fuel, pool, m, acc, dir :: rest, acc', h => by
    rw [collectDirectivesM] at h
    split at h
    · exact absurd h (by simp)
    · rename_i acc1 h1
      rcases collectDirectiveM_mono fuel pool m acc dir acc1 h1 with ⟨t1, ht1⟩
      rcases collectDirectivesM_mono fuel pool m acc1 rest acc' h with ⟨t2, ht2⟩
      exact ⟨t1 ++ t2, by rw [ht2, ht1, List.append_assoc]⟩
termination_by fuel _ _ _ _ _ _ => fuel

theorem collectDirectiveM_mono : ∀ (fuel : Nat) (pool : List Definition)
    (m : String → Option Definition) (acc : List Definition) (dir : DirectiveNode)
    (acc' : List Definition), collectDirectiveM fuel pool m acc dir = Except.ok acc' →
    ∃ t, acc' = acc ++ t
  | 0, pool, m, acc, dir, acc', h => by
    rw [collectDirectiveM] at h
    exact absurd h (by simp)
  | Nat.succ fuel, pool, m, acc, dir, acc', h => by
    rw [collectDirectiveM] at h
    split at h
    · split at h
      · exact absurd h (by simp)
      · split at h
        · rename_i nm1 args1 hm
          split at h
          · exact absurd h (by simp)
          · rename_i acc1 hnodes
            cases h
            rcases collectNodesM_mono fuel pool m acc _ acc1 hnodes with ⟨t, ht⟩
            exact ⟨t ++ [Definition.directiveDef nm1 args1], by rw [ht, List.append_assoc]⟩
        · exact absurd h (by simp)
    · cases h
      exact ⟨[], by simp⟩
termination_by fuel _ _ _ _ _ _ => fuel

theorem collectNodesM_mono : ∀ (fuel : Nat) (pool : List Definition)
    (m : String → Option Definition) (acc : List Definition) (nodes : List TypedNode)
    (acc' : List Definition), collectNodesM fuel pool m acc nodes = Except.ok acc' →
    ∃ t, acc' = acc ++ t
  | fuel, pool, m, acc, [], acc', h => by
    rw [collectNodesM] at h
    cases h
    exact ⟨[], by simp⟩
  | 0, pool, m, acc, n :: rest, acc', h => by
    rw [collectNodesM] at h
    exact absurd h (by simp)
  | Nat.succ fuel, pool, m, acc, n :: rest, acc', h => by
    rw [collectNodesM] at h
    split at h
    · exact absurd h (by simp)
    · rename_i acc1 h1
      rcases collectNodeM_mono fuel pool m acc n acc1 h1 with ⟨t1, ht1⟩
      rcases collectNodesM_mono fuel pool m acc1 rest acc' h with ⟨t2, ht2⟩
      exact ⟨t1 ++ t2, by rw [ht2, ht1, List.append_assoc]⟩
termination_by fuel _ _ _ _ _ _ => fuel

end

mutual

theorem collectFragmentsM_mono : ∀ (fuel : Nat) (pool : List Definition)
    (m : String → Option Definition) (acc : List Definition) (sel : SelectionNode)
    (acc' : List Definition), collectFragmentsM fuel pool m acc sel = Except.ok acc' →
    ∃ t, acc' = acc ++ t
  | fuel, pool, m, acc, .fragmentSpread n ds, acc', h => by
    rw [collectFragmentsM] at h
    split at h
    · split at h
      · exact absurd h (by simp)
      · rename_i found hm
        cases h
        exact ⟨[found], rfl⟩
    · cases h
      exact ⟨[], by simp⟩
  | fuel, pool, m, acc, .node ds none, acc', h => by
    rw [collectFragmentsM] at h
    cases h
    exact ⟨[], by simp⟩
  | fuel, pool, m, acc, .node ds (some sels), acc', h => by
    rw [collectFragmentsM] at h
    exact collectFragmentsListM_mono fuel pool m acc ds sels acc' h
termination_by _ _ _ _ sel _ _ => sizeOf sel

theorem collectFragmentsListM_mono : ∀ (fuel : Nat) (pool : List Definition)
    (m : String → Option Definition) (acc : List Definition) (parentDirs : List DirectiveNode)
    (sels : List SelectionNode) (acc' : List Definition),
    collectFragmentsListM fuel pool m acc parentDirs sels = Except.ok acc' →
    ∃ t, acc' = acc ++ t
  | fuel, pool, m, acc, parentDirs, [], acc', h => by
    rw [collectFragmentsListM] at h
    cases h
    exact ⟨[], by simp⟩
  | fuel, pool, m, acc, parentDirs, s :: rest, acc', h => by
    rw [collectFragmentsListM] at h
    split at h
    · exact absurd h (by simp)
    · rename_i acc1 h1
      split at h
      · exact absurd h (by simp)
      · rename_i acc2 h2
        rcases collectDirectivesM_mono fuel pool m acc parentDirs acc1 h1 with ⟨t1, ht1⟩
        rcases collectFragmentsM_mono fuel pool m acc1 s acc2 h2 with ⟨t2, ht2⟩
        rcases collectFragmentsListM_mono fuel pool m acc2 parentDirs rest acc' h with ⟨t3, ht3⟩
        exact ⟨t1 ++ t2 ++ t3, by rw [ht3, ht2, ht1]; simp⟩
termination_by _ _ _ _ _ sels _ _ => sizeOf sels

end

/-!
Generic facts about `List.foldlM` in the `Except` monad, used to lift the
per-element lemmas to the per-definition level.
-/

theorem Except_ok_bind {α β : Type} (a : α) (f : α → Except String β) :
    (Except.ok a >>= f) = f a := rfl

mutual

theorem collectNodeM_prov : ∀ (fuel : Nat) (pool : List Definition)
    (m : String → Option Definition) (acc : List Definition) (node : TypedNode)
    (acc' : List Definition), collectNodeM fuel pool m acc node = Except.ok acc' →
    ∀ y ∈ acc', y ∈ acc ∨ ∃ k, m k = some y
  | 0, pool, m, acc, node, acc', h => by
    rw [collectNodeM] at h
    exact absurd h (by simp)
  | Nat.succ fuel, pool, m, acc, node, acc', h => by
    rw [collectNodeM] at h
    split at h
    · exact absurd h (by simp)
    · rename_i acc1 hstep
      intro y hy
      rcases collectDirectivesM_prov fuel pool m acc1 node.directives acc' h y hy with h1 | h2
      · split at hstep
        · split at hstep
          · exact absurd hstep (by simp)
          · rename_i found hm
            cases hstep
            rcases List.mem_append.mp h1 with ha | hb
            · exact Or.inl ha
            · rw [List.mem_singleton.mp hb]
              exact Or.inr ⟨_, hm⟩
        · cases hstep
          exact Or.inl h1
      · exact Or.inr h2
termination_by fuel _ _ _ _ _ _ => fuel

theorem collectDirectivesM_prov : ∀ (fuel : Nat) (pool : List Definition)
    (m : String → Option Definition) (acc : List Definition) (dirs : List DirectiveNode)
    (acc' : List Definition), collectDirectivesM fuel pool m acc dirs = Except.ok acc' →
    ∀ y ∈ acc', y ∈ acc ∨ ∃ k, m k = some y
  | fuel, pool, m, acc, [], acc', h => by
    rw [collectDirectivesM] at h
    cases h
    exact fun y hy => Or.inl hy
  | 0, pool, m, acc, dir :: rest, acc', h => by
    rw [collectDirectivesM] at h
    exact absurd h (by simp)
  | Nat.succ fuel, pool, m, acc, dir :: rest, acc', h => by
    rw [collectDirectivesM] at h
    split at h
    · exact absurd h (by simp)
    · rename_i acc1 h1
      intro y hy
      rcases collectDirectivesM_prov fuel pool m acc1 rest acc' h y hy with ha | hb
      · exact collectDirectiveM_prov fuel pool m acc dir acc1 h1 y ha
      · exact Or.inr hb
termination_by fuel _ _ _ _ _ _ => fuel

theorem collectDirectiveM_prov : ∀ (fuel : Nat) (pool : List Definition)
    (m : String → Option Definition) (acc : List Definition) (dir : DirectiveNode)
    (acc' : List Definition), collectDirectiveM fuel pool m acc dir = Except.ok acc' →
    ∀ y ∈ acc', y ∈ acc ∨ ∃ k, m k = some y
  | 0, pool, m, acc, dir, acc', h => by
    rw [collectDirectiveM] at h
    exact absurd h (by simp)
  | Nat.succ fuel, pool, m, acc, dir, acc', h => by
    rw [collectDirectiveM] at h
    split at h
    · split at h
      · exact absurd h (by simp)
      · split at h
        · rename_i nm1 args1 hm
          split at h
          · exact absurd h (by simp)
          · rename_i acc1 hnodes
            cases h
            intro y hy
            rcases List.mem_append.mp hy with ha | hb
            · exact collectNodesM_prov fuel pool m acc _ acc1 hnodes y ha
            · rw [List.mem_singleton.mp hb]
              exact Or.inr ⟨_, hm⟩
        · exact absurd h (by simp)
    · cases h
      exact fun y hy => Or.inl hy
termination_by fuel _ _ _ _ _ _ => fuel

theorem collectNodesM_prov : ∀ (fuel : Nat) (pool : List Definition)
    (m : String → Option Definition) (acc : List Definition) (nodes : List TypedNode)
    (acc' : List Definition), collectNodesM fuel pool m acc nodes = Except.ok acc' →
    ∀ y ∈ acc', y ∈ acc ∨ ∃ k, m k = some y
  | fuel, pool, m, acc, [], acc', h => by
    rw [collectNodesM] at h
    cases h
    exact fun y hy => Or.inl hy
  | 0, pool, m, acc, n :: rest, acc', h => by
    rw [collectNodesM] at h
    exact absurd h (by simp)
  | Nat.succ fuel, pool, m, acc, n :: rest, acc', h => by
    rw [collectNodesM] at h
    split at h
    · exact absurd h (by simp)
    · rename_i acc1 h1
      intro y hy
      rcases collectNodesM_prov fuel pool m acc1 rest acc' h y hy with ha | hb
      · exact collectNodeM_prov fuel pool m acc n acc1 h1 y ha
      · exact Or.inr hb
termination_by fuel _ _ _ _ _ _ => fuel

end

mutual

theorem collectFragmentsM_prov : ∀ (fuel : Nat) (pool : List Definition)
    (m : String → Option Definition) (acc : List Definition) (sel : SelectionNode)
    (acc' : List Definition), collectFragmentsM fuel pool m acc sel = Except.ok acc' →
    ∀ y ∈ acc', y ∈ acc ∨ ∃ k, m k = some y
  | fuel, pool, m, acc, .fragmentSpread n ds, acc', h => by
    rw [collectFragmentsM] at h
    split at h
    · split at h
      · exact absurd h (by simp)
      · rename_i found hm
        cases h
        intro y hy
        rcases List.mem_append.mp hy with ha | hb
        · exact Or.inl ha
        · rw [List.mem_singleton.mp hb]
          exact Or.inr ⟨_, hm⟩
    · cases h
      exact fun y hy => Or.inl hy
  | fuel, pool, m, acc, .node ds none, acc', h => by
    rw [collectFragmentsM] at h
    cases h
    exact fun y hy => Or.inl hy
  | fuel, pool, m, acc, .node ds (some sels), acc', h => by
    rw [collectFragmentsM] at h
    exact collectFragmentsListM_prov fuel pool m acc ds sels acc' h
termination_by _ _ _ _ sel _ _ => sizeOf sel

theorem collectFragmentsListM_prov : ∀ (fuel : Nat) (pool : List Definition)
    (m : String → Option Definition) (acc : List Definition) (parentDirs : List DirectiveNode)
    (sels : List SelectionNode) (acc' : List Definition),
    collectFragmentsListM fuel pool m acc parentDirs sels = Except.ok acc' →
    ∀ y ∈ acc', y ∈ acc ∨ ∃ k, m k = some y
  | fuel, pool, m, acc, parentDirs, [], acc', h => by
    rw [collectFragmentsListM] at h
    cases h
    exact fun y hy => Or.inl hy
  | fuel, pool, m, acc, parentDirs, s :: rest, acc', h => by
    rw [collectFragmentsListM] at h
    split at h
    · exact absurd h (by simp)
    · rename_i acc1 h1
      split at h
      · exact absurd h (by simp)
      · rename_i acc2 h2
        intro y hy
        rcases collectFragmentsListM_prov fuel pool m acc2 parentDirs rest acc' h y hy with ha | hb
        · rcases collectFragmentsM_prov fuel pool m acc1 s acc2 h2 y ha with hc | hd
          · exact collectDirectivesM_prov fuel pool m acc parentDirs acc1 h1 y hc
          · exact Or.inr hd
        · exact Or.inr hb
termination_by _ _ _ _ _ sels _ _ => sizeOf sels

end

theorem refSatB_of_pooled {pool : List Definition} {r : Ref}
    (h : poolHasName pool r.name = true) : refSatB pool r = true := by
  unfold refSatB
  rw [h]
  rfl

theorem uniqKey_directiveDef (nm : String) (args : List InputValueDef) :
    (Definition.directiveDef nm args).uniqKey = some nm := rfl

theorem collectDirectiveM_sat : ∀ (fuel : Nat) (pool : List Definition)
    (m : String → Option Definition) (acc : List Definition) (dir : DirectiveNode)
    (acc' : List Definition), MapKeyed m → dir.name ≠ "schema" →
    collectDirectiveM fuel pool m acc dir = Except.ok acc' →
    refSatB (pool ++ acc') ⟨RefClass.directiveRef, dir.name⟩ = true
  | 0, pool, m, acc, dir, acc', hmk, hns, h => by
    rw [collectDirectiveM] at h
    exact absurd h (by simp)
  | Nat.succ fuel, pool, m, acc, dir, acc', hmk, hns, h => by
    rw [collectDirectiveM] at h
    split at h
    · rename_i hcond
      split at h
      · exact absurd h (by simp)
      · rename_i found hm
        split at h
        · rename_i nm1 args1
          split at h
          · exact absurd h (by simp)
          · rename_i acc1 hnodes
            cases h
            apply refSatB_of_pooled
            apply poolHasName_of_mem (d := Definition.directiveDef nm1 args1)
            · simp
            · have hk := hmk _ _ hm
              simp only [Definition.defKey] at hk
              rw [uniqKey_directiveDef, hk]
        · exact absurd h (by simp)
    · rename_i hcond
      cases h
      by_cases hp : poolHasName pool dir.name = true
      · exact refSatB_mono acc (refSatB_of_pooled hp)
      · by_cases hb : builtinDirectives.contains dir.name = true
        · unfold refSatB
          rw [hb]
          simp
        · exact absurd ⟨hp, hb⟩ hcond

theorem collectDirectivesM_sat : ∀ (fuel : Nat) (pool : List Definition)
    (m : String → Option Definition) (acc : List Definition) (dirs : List DirectiveNode)
    (acc' : List Definition), MapKeyed m → (∀ dn ∈ dirs, dn.name ≠ "schema") →
    collectDirectivesM fuel pool m acc dirs = Except.ok acc' →
    ∀ r ∈ dirRefs dirs, refSatB (pool ++ acc') r = true
  | fuel, pool, m, acc, [], acc', hmk, hns, h => by
    intro r hr
    cases hr
  | 0, pool, m, acc, dir :: rest, acc', hmk, hns, h => by
    rw [collectDirectivesM] at h
    exact absurd h (by simp)
  | Nat.succ fuel, pool, m, acc, dir :: rest, acc', hmk, hns, h => by
    rw [collectDirectivesM] at h
    split at h
    · exact absurd h (by simp)
    · rename_i acc1 h1
      intro r hr
      rcases List.mem_cons.mp hr with rfl | hr2
      · rcases collectDirectivesM_mono fuel pool m acc1 rest acc' h with ⟨t, ht⟩
        have hsat := collectDirectiveM_sat fuel pool m acc dir acc1 hmk
          (hns dir (List.mem_cons_self _ _)) h1
        rw [ht, ← List.append_assoc]
        exact refSatB_mono t hsat
      · exact collectDirectivesM_sat fuel pool m acc1 rest acc' hmk
          (fun dn hdn => hns dn (List.mem_cons_of_mem _ hdn)) h r hr2
termination_by fuel _ _ _ _ _ _ _ _ => fuel

mutual

theorem collectFragmentsM_sat : ∀ (fuel : Nat) (pool : List Definition)
    (m : String → Option Definition) (acc : List Definition) (sel : SelectionNode)
    (acc' : List Definition), MapKeyed m →
    (∀ r ∈ refsOfSelection sel, r.name ≠ "schema") →
    collectFragmentsM fuel pool m acc sel = Except.ok acc' →
    ∀ r ∈ refsOfSelection sel, refSatB (pool ++ acc') r = true
  | fuel, pool, m, acc, .fragmentSpread n ds, acc', hmk, hns, h => by
    rw [collectFragmentsM] at h
    split at h
    · rename_i hcond
      split at h
      · exact absurd h (by simp)
      · rename_i found hm
        cases h
        intro r hr
        rw [show refsOfSelection (.fragmentSpread n ds) = [⟨RefClass.hardRef, n⟩] from rfl] at hr
        rw [List.mem_singleton.mp hr]
        apply refSatB_of_pooled
        apply poolHasName_of_mem (d := found)
        · simp
        · have hk := hmk _ _ hm
          have hne : found.defKey ≠ "schema" := by
            rw [hk]
            exact hns _ (by rw [show refsOfSelection (.fragmentSpread n ds) =
              [⟨RefClass.hardRef, n⟩] from rfl]; exact List.mem_singleton.mpr rfl)
          rw [uniqKey_of_defKey_ne hne, hk]
    · rename_i hcond
      cases h
      intro r hr
      rw [show refsOfSelection (.fragmentSpread n ds) = [⟨RefClass.hardRef, n⟩] from rfl] at hr
      rw [List.mem_singleton.mp hr]
      have hp : poolHasName pool n = true := by
        by_cases hq : poolHasName pool n = true
        · exact hq
        · exact absurd hq hcond
      exact refSatB_mono acc (refSatB_of_pooled hp)
  | fuel, pool, m, acc, .node ds none, acc', hmk, hns, h => by
    intro r hr
    rw [show refsOfSelection (.node ds none) = [] from rfl] at hr
    cases hr
  | fuel, pool, m, acc, .node ds (some sels), acc', hmk, hns, h => by
    rw [collectFragmentsM] at h
    rw [show refsOfSelection (.node ds (some sels)) = refsOfSelections ds sels from rfl]
    rw [show refsOfSelection (.node ds (some sels)) = refsOfSelections ds sels from rfl] at hns
    exact collectFragmentsListM_sat fuel pool m acc ds sels acc' hmk hns h
termination_by _ _ _ _ sel _ _ _ _ => sizeOf sel

theorem collectFragmentsListM_sat : ∀ (fuel : Nat) (pool : List Definition)
    (m : String → Option Definition) (acc : List Definition) (parentDirs : List DirectiveNode)
    (sels : List SelectionNode) (acc' : List Definition), MapKeyed m →
    (∀ r ∈ refsOfSelections parentDirs sels, r.name ≠ "schema") →
    collectFragmentsListM fuel pool m acc parentDirs sels = Except.ok acc' →
    ∀ r ∈ refsOfSelections parentDirs sels, refSatB (pool ++ acc') r = true
  | fuel, pool, m, acc, parentDirs, [], acc', hmk, hns, h => by
    intro r hr
    rw [show refsOfSelections parentDirs [] = [] from rfl] at hr
    cases hr
  | fuel, pool, m, acc, parentDirs, s :: rest, acc', hmk, hns, h => by
    rw [collectFragmentsListM] at h
    split at h
    · exact absurd h (by simp)
    · rename_i acc1 h1
      split at h
      · exact absurd h (by simp)
      · rename_i acc2 h2
        rw [show refsOfSelections parentDirs (s :: rest) =
          dirRefs parentDirs ++ refsOfSelection s ++ refsOfSelections parentDirs rest from rfl]
          at hns ⊢
        rcases collectFragmentsM_mono fuel pool m acc1 s acc2 h2 with ⟨t2, ht2⟩
        rcases collectFragmentsListM_mono fuel pool m acc2 parentDirs rest acc' h with ⟨t3, ht3⟩
        intro r hr
        rcases List.mem_append.mp hr with hr1 | hr3
        · rcases List.mem_append.mp hr1 with hra | hrb
          · have hsat := collectDirectivesM_sat fuel pool m acc parentDirs acc1 hmk
              (fun dn hdn => hns ⟨RefClass.directiveRef, dn.name⟩ (by
                refine List.mem_append.mpr (Or.inl (List.mem_append.mpr (Or.inl ?_)))
                simp only [dirRefs, List.mem_map]
                exact ⟨dn, hdn, rfl⟩)) h1 r hra
            rw [ht3, ht2, ← List.append_assoc, ← List.append_assoc]
            exact refSatB_mono t3 (refSatB_mono t2 hsat)
          · have hsat := collectFragmentsM_sat fuel pool m acc1 s acc2 hmk
              (fun x hx => hns x (List.mem_append.mpr (Or.inl (List.mem_append.mpr (Or.inr hx)))))
              h2 r hrb
            rw [ht3, ← List.append_assoc]
            exact refSatB_mono t3 hsat
        · exact collectFragmentsListM_sat fuel pool m acc2 parentDirs rest acc' hmk
            (fun x hx => hns x (List.mem_append.mpr (Or.inr hx))) h r hr3
termination_by _ _ _ _ _ sels _ _ _ _ => sizeOf sels

end

theorem matchableB_of_sat {pool : List Definition} {m : String → Option Definition} {r : Ref}
    (h : refSatB pool r = true) : matchableB pool m r = true := by
  unfold matchableB
  rw [h]
  rfl

theorem refSatB_hard_pool {pool : List Definition} {n : String}
    (h : refSatB pool ⟨RefClass.hardRef, n⟩ = true) : poolHasName pool n = true := by
  unfold refSatB at h
  simpa using h

theorem collectDirectiveM_matchable : ∀ (fuel : Nat) (pool : List Definition)
    (m : String → Option Definition) (acc : List Definition) (dir : DirectiveNode)
    (acc' : List Definition), collectDirectiveM fuel pool m acc dir = Except.ok acc' →
    matchableB pool m ⟨RefClass.directiveRef, dir.name⟩ = true
  | 0, pool, m, acc, dir, acc', h => by
    rw [collectDirectiveM] at h
    exact absurd h (by simp)
  | Nat.succ fuel, pool, m, acc, dir, acc', h => by
    rw [collectDirectiveM] at h
    split at h
    · split at h
      · exact absurd h (by simp)
      · rename_i found hm
        unfold matchableB
        rw [hm]
        simp
    · rename_i hcond
      by_cases hp : poolHasName pool dir.name = true
      · exact matchableB_of_sat (refSatB_of_pooled hp)
      · by_cases hb : builtinDirectives.contains dir.name = true
        · apply matchableB_of_sat
          unfold refSatB
          rw [hb]
          simp
        · exact absurd ⟨hp, hb⟩ hcond

theorem collectDirectivesM_matchable : ∀ (fuel : Nat) (pool : List Definition)
    (m : String → Option Definition) (acc : List Definition) (dirs : List DirectiveNode)
    (acc' : List Definition), collectDirectivesM fuel pool m acc dirs = Except.ok acc' →
    ∀ r ∈ dirRefs dirs, matchableB pool m r = true
  | fuel, pool, m, acc, [], acc', h => by
    intro r hr
    cases hr
  | 0, pool, m, acc, dir :: rest, acc', h => by
    rw [collectDirectivesM] at h
    exact absurd h (by simp)
  | Nat.succ fuel, pool, m, acc, dir :: rest, acc', h => by
    rw [collectDirectivesM] at h
    split at h
    · exact absurd h (by simp)
    · rename_i acc1 h1
      intro r hr
      rcases List.mem_cons.mp hr with rfl | hr2
      · exact collectDirectiveM_matchable fuel pool m acc dir acc1 h1
      · exact collectDirectivesM_matchable fuel pool m acc1 rest acc' h r hr2
termination_by fuel _ _ _ _ _ _ => fuel

mutual

theorem collectFragmentsM_matchable : ∀ (fuel : Nat) (pool : List Definition)
    (m : String → Option Definition) (acc : List Definition) (sel : SelectionNode)
    (acc' : List Definition), collectFragmentsM fuel pool m acc sel = Except.ok acc' →
    ∀ r ∈ refsOfSelection sel, matchableB pool m r = true
  | fuel, pool, m, acc, .fragmentSpread n ds, acc', h => by
    rw [collectFragmentsM] at h
    intro r hr
    rw [show refsOfSelection (.fragmentSpread n ds) = [⟨RefClass.hardRef, n⟩] from rfl] at hr
    rw [List.mem_singleton.mp hr]
    split at h
    · split at h
      · exact absurd h (by simp)
      · rename_i found hm
        unfold matchableB
        rw [hm]
        simp
    · rename_i hcond
      have hp : poolHasName pool n = true := by
        by_cases hq : poolHasName pool n = true
        · exact hq
        · exact absurd hq hcond
      exact matchableB_of_sat (refSatB_of_pooled hp)
  | fuel, pool, m, acc, .node ds none, acc', h => by
    intro r hr
    rw [show refsOfSelection (.node ds none) = [] from rfl] at hr
    cases hr
  | fuel, pool, m, acc, .node ds (some sels), acc', h => by
    rw [collectFragmentsM] at h
    rw [show refsOfSelection (.node ds (some sels)) = refsOfSelections ds sels from rfl]
    exact collectFragmentsListM_matchable fuel pool m acc ds sels acc' h
termination_by _ _ _ _ sel _ _ => sizeOf sel

theorem collectFragmentsListM_matchable : ∀ (fuel : Nat) (pool : List Definition)
    (m : String → Option Definition) (acc : List Definition) (parentDirs : List DirectiveNode)
    (sels : List SelectionNode) (acc' : List Definition),
    collectFragmentsListM fuel pool m acc parentDirs sels = Except.ok acc' →
    ∀ r ∈ refsOfSelections parentDirs sels, matchableB pool m r = true
  | fuel, pool, m, acc, parentDirs, [], acc', h => by
    intro r hr
    rw [show refsOfSelections parentDirs [] = [] from rfl] at hr
    cases hr
  | fuel, pool, m, acc, parentDirs, s :: rest, acc', h => by
    rw [collectFragmentsListM] at h
    split at h
    · exact absurd h (by simp)
    · rename_i acc1 h1
      split at h
      · exact absurd h (by simp)
      · rename_i acc2 h2
        intro r hr
        rw [show refsOfSelections parentDirs (s :: rest) =
          dirRefs parentDirs ++ refsOfSelection s ++ refsOfSelections parentDirs rest from rfl]
          at hr
        rcases List.mem_append.mp hr with hr1 | hr3
        · rcases List.mem_append.mp hr1 with hra | hrb
          · exact collectDirectivesM_matchable fuel pool m acc parentDirs acc1 h1 r hra
          · exact collectFragmentsM_matchable fuel pool m acc1 s acc2 h2 r hrb
        · exact collectFragmentsListM_matchable fuel pool m acc2 parentDirs rest acc' h r hr3
termination_by _ _ _ _ _ sels _ _ => sizeOf sels

end

theorem refSatB_dir_cases {pool : List Definition} {n : String}
    (h : refSatB pool ⟨RefClass.directiveRef, n⟩ = true) :
    poolHasName pool n = true ∨ builtinDirectives.contains n = true := by
  unfold refSatB at h
  simpa using h

theorem collectDirectiveM_noop (fuel : Nat) (pool : List Definition)
    (m : String → Option Definition) (acc : List Definition) (dir : DirectiveNode)
    (hfuel : 1 ≤ fuel)
    (h : refSatB pool ⟨RefClass.directiveRef, dir.name⟩ = true) :
    collectDirectiveM fuel pool m acc dir = Except.ok acc := by
  match fuel, hfuel with
  | Nat.succ fuel, _ =>
    rw [collectDirectiveM]
    rw [if_neg]
    intro hcond
    rcases refSatB_dir_cases h with hp | hb
    · exact hcond.1 hp
    · exact hcond.2 hb

theorem collectDirectivesM_noop : ∀ (fuel : Nat) (pool : List Definition)
    (m : String → Option Definition) (dirs : List DirectiveNode),
    dirs.length + 1 ≤ fuel →
    (∀ dn ∈ dirs, refSatB pool ⟨RefClass.directiveRef, dn.name⟩ = true) →
    ∀ acc, collectDirectivesM fuel pool m acc dirs = Except.ok acc
  | fuel, pool, m, [], hfuel, h, acc => by
    rw [collectDirectivesM]
  | 0, pool, m, dir :: rest, hfuel, h, acc => by
    exact absurd hfuel (by simp)
  | Nat.succ fuel, pool, m, dir :: rest, hfuel, h, acc => by
    rw [collectDirectivesM]
    rw [collectDirectiveM_noop fuel pool m acc dir
      (by simp at hfuel; omega) (h dir (List.mem_cons_self _ _))]
    exact collectDirectivesM_noop fuel pool m rest (by simp at hfuel ⊢; omega)
      (fun dn hdn => h dn (List.mem_cons_of_mem _ hdn)) acc
termination_by fuel _ _ _ _ _ _ => fuel

mutual

theorem collectFragmentsM_noop : ∀ (fuel : Nat) (pool : List Definition)
    (m : String → Option Definition) (sel : SelectionNode),
    wSel sel ≤ fuel →
    (∀ r ∈ refsOfSelection sel, refSatB pool r = true) →
    ∀ acc, collectFragmentsM fuel pool m acc sel = Except.ok acc
  | fuel, pool, m, .fragmentSpread n ds, hfuel, h, acc => by
    rw [collectFragmentsM]
    rw [if_neg]
    intro hcond
    exact hcond (refSatB_hard_pool (h ⟨RefClass.hardRef, n⟩ (by
      rw [show refsOfSelection (.fragmentSpread n ds) = [⟨RefClass.hardRef, n⟩] from rfl]
      exact List.mem_singleton.mpr rfl)))
  | fuel, pool, m, .node ds none, hfuel, h, acc => by
    rw [collectFragmentsM]
  | fuel, pool, m, .node ds (some sels), hfuel, h, acc => by
    rw [collectFragmentsM]
    exact collectFragmentsListM_noop fuel pool m ds sels
      (by rw [show wSel (.node ds (some sels)) = wSels ds sels from rfl] at hfuel; exact hfuel)
      (by
        rw [show refsOfSelection (.node ds (some sels)) = refsOfSelections ds sels from rfl] at h
        exact h) acc
termination_by _ _ _ sel _ _ _ => sizeOf sel

theorem collectFragmentsListM_noop : ∀ (fuel : Nat) (pool : List Definition)
    (m : String → Option Definition) (parentDirs : List DirectiveNode)
    (sels : List SelectionNode),
    wSels parentDirs sels ≤ fuel →
    (∀ r ∈ refsOfSelections parentDirs sels, refSatB pool r = true) →
    ∀ acc, collectFragmentsListM fuel pool m acc parentDirs sels = Except.ok acc
  | fuel, pool, m, parentDirs, [], hfuel, h, acc => by
    rw [collectFragmentsListM]
  | fuel, pool, m, parentDirs, s :: rest, hfuel, h, acc => by
    rw [collectFragmentsListM]
    have hw : (parentDirs.length + 1) + wSel s + wSels parentDirs rest ≤ fuel := by
      rw [show wSels parentDirs (s :: rest) =
        (parentDirs.length + 1) + wSel s + wSels parentDirs rest from rfl] at hfuel
      exact hfuel
    have hsplit : ∀ r, (r ∈ dirRefs parentDirs ∨ r ∈ refsOfSelection s ∨
        r ∈ refsOfSelections parentDirs rest) → refSatB pool r = true := by
      intro r hr
      apply h
      rw [show refsOfSelections parentDirs (s :: rest) =
        dirRefs parentDirs ++ refsOfSelection s ++ refsOfSelections parentDirs rest from rfl]
      rcases hr with h1 | h2 | h3
      · exact List.mem_append.mpr (Or.inl (List.mem_append.mpr (Or.inl h1)))
      · exact List.mem_append.mpr (Or.inl (List.mem_append.mpr (Or.inr h2)))
      · exact List.mem_append.mpr (Or.inr h3)
    rw [collectDirectivesM_noop fuel pool m parentDirs (by omega)
      (fun dn hdn => hsplit ⟨RefClass.directiveRef, dn.name⟩ (Or.inl (by
        simp only [dirRefs, List.mem_map]
        exact ⟨dn, hdn, rfl⟩))) acc]
    show (match collectFragmentsM fuel pool m acc s with
      | Except.error e => Except.error e
      | Except.ok acc2 => collectFragmentsListM fuel pool m acc2 parentDirs rest) =
      Except.ok acc
    rw [collectFragmentsM_noop fuel pool m s (by omega)
      (fun r hr => hsplit r (Or.inr (Or.inl hr))) acc]
    show collectFragmentsListM fuel pool m acc parentDirs rest = Except.ok acc
    exact collectFragmentsListM_noop fuel pool m parentDirs rest (by omega)
      (fun r hr => hsplit r (Or.inr (Or.inr hr))) acc
termination_by _ _ _ _ sels _ _ _ => sizeOf sels

end

theorem str_contains_iff (l : List String) (a : String) :
    l.contains a = true ↔ a ∈ l := by
  simp

theorem two_pow_succ_eq (n : Nat) : 2 ^ (n + 1) = 2 ^ n + 2 ^ n := by
  rw [Nat.pow_succ]
  omega

theorem one_le_two_pow_any (n : Nat) : 1 ≤ 2 ^ n := Nat.one_le_pow n 2 (by omega)

mutual

theorem collectNodeM_len : ∀ (fuel : Nat) (pool : List Definition)
    (m : String → Option Definition) (acc : List Definition) (node : TypedNode)
    (acc' : List Definition), collectNodeM fuel pool m acc node = Except.ok acc' →
    acc'.length ≤ acc.length + 2 ^ fuel
  | 0, pool, m, acc, node, acc', h => by
    rw [collectNodeM] at h
    exact absurd h (by simp)
  | Nat.succ fuel, pool, m, acc, node, acc', h => by
    rw [collectNodeM] at h
    split at h
    · exact absurd h (by simp)
    · rename_i acc1 hstep
      have hd := collectDirectivesM_len fuel pool m acc1 node.directives acc' h
      have h1 : acc1.length ≤ acc.length + 1 := by
        split at hstep
        · split at hstep
          · exact absurd hstep (by simp)
          · rename_i found hm
            cases hstep
            simp
        · cases hstep
          omega
      have h2 := two_pow_succ_eq fuel
      have h3 := one_le_two_pow_any fuel
      omega
termination_by fuel _ _ _ _ _ _ => fuel

theorem collectDirectivesM_len : ∀ (fuel : Nat) (pool : List Definition)
    (m : String → Option Definition) (acc : List Definition) (dirs : List DirectiveNode)
    (acc' : List Definition), collectDirectivesM fuel pool m acc dirs = Except.ok acc' →
    acc'.length ≤ acc.length + 2 ^ fuel
  | fuel, pool, m, acc, [], acc', h => by
    rw [collectDirectivesM] at h
    cases h
    have := one_le_two_pow_any fuel
    omega
  | 0, pool, m, acc, dir :: rest, acc', h => by
    rw [collectDirectivesM] at h
    exact absurd h (by simp)
  | Nat.succ fuel, pool, m, acc, dir :: rest, acc', h => by
    rw [collectDirectivesM] at h
    split at h
    · exact absurd h (by simp)
    · rename_i acc1 h1
      have ha := collectDirectiveM_len fuel pool m acc dir acc1 h1
      have hb := collectDirectivesM_len fuel pool m acc1 rest acc' h
      have h2 := two_pow_succ_eq fuel
      omega
termination_by fuel _ _ _ _ _ _ => fuel

theorem collectDirectiveM_len : ∀ (fuel : Nat) (pool : List Definition)
    (m : String → Option Definition) (acc : List Definition) (dir : DirectiveNode)
    (acc' : List Definition), collectDirectiveM fuel pool m acc dir = Except.ok acc' →
    acc'.length ≤ acc.length + 2 ^ fuel
  | 0, pool, m, acc, dir, acc', h => by
    rw [collectDirectiveM] at h
    exact absurd h (by simp)
  | Nat.succ fuel, pool, m, acc, dir, acc', h => by
    rw [collectDirectiveM] at h
    split at h
    · split at h
      · exact absurd h (by simp)
      · split at h
        · rename_i nm1 args1 hm
          split at h
          · exact absurd h (by simp)
          · rename_i acc1 hnodes
            cases h
            have ha := collectNodesM_len fuel pool m acc _ acc1 hnodes
            have h2 := two_pow_succ_eq fuel
            have h3 := one_le_two_pow_any fuel
            simp only [List.length_append, List.length_cons, List.length_nil]
            omega
        · exact absurd h (by simp)
    · cases h
      have := one_le_two_pow_any (fuel + 1)
      omega
termination_by fuel _ _ _ _ _ _ => fuel

theorem collectNodesM_len : ∀ (fuel : Nat) (pool : List Definition)
    (m : String → Option Definition) (acc : List Definition) (nodes : List TypedNode)
    (acc' : List Definition), collectNodesM fuel pool m acc nodes = Except.ok acc' →
    acc'.length ≤ acc.length + 2 ^ fuel
  | fuel, pool, m, acc, [], acc', h => by
    rw [collectNodesM] at h
    cases h
    have := one_le_two_pow_any fuel
    omega
  | 0, pool, m, acc, n :: rest, acc', h => by
    rw [collectNodesM] at h
    exact absurd h (by simp)
  | Nat.succ fuel, pool, m, acc, n :: rest, acc', h => by
    rw [collectNodesM] at h
    split at h
    · exact absurd h (by simp)
    · rename_i acc1 h1
      have ha := collectNodeM_len fuel pool m acc n acc1 h1
      have hb := collectNodesM_len fuel pool m acc1 rest acc' h
      have h2 := two_pow_succ_eq fuel
      omega
termination_by fuel _ _ _ _ _ _ => fuel

end

mutual

theorem collectFragmentsM_len : ∀ (fuel : Nat) (pool : List Definition)
    (m : String → Option Definition) (acc : List Definition) (sel : SelectionNode)
    (acc' : List Definition), collectFragmentsM fuel pool m acc sel = Except.ok acc' →
    acc'.length ≤ acc.length + szSel sel * (2 ^ fuel + 1)
  | fuel, pool, m, acc, .fragmentSpread n ds, acc', h => by
    rw [collectFragmentsM] at h
    split at h
    · split at h
      · exact absurd h (by simp)
      · rename_i found hm
        cases h
        have h1 : szSel (SelectionNode.fragmentSpread n ds) = 1 := rfl
        have hb := one_le_two_pow_any fuel
        rw [h1, Nat.one_mul]
        simp only [List.length_append, List.length_cons, List.length_nil]
        omega
    · cases h
      have h1 : szSel (SelectionNode.fragmentSpread n ds) = 1 := rfl
      have hb := one_le_two_pow_any fuel
      rw [h1, Nat.one_mul]
      omega
  | fuel, pool, m, acc, .node ds none, acc', h => by
    rw [collectFragmentsM] at h
    cases h
    have h1 : szSel (SelectionNode.node ds none) = 1 := rfl
    have hb := one_le_two_pow_any fuel
    rw [h1, Nat.one_mul]
    omega
  | fuel, pool, m, acc, .node ds (some sels), acc', h => by
    rw [collectFragmentsM] at h
    have := collectFragmentsListM_len fuel pool m acc ds sels acc' h
    have h1 : szSel (SelectionNode.node ds (some sels)) = szSels sels + 1 := rfl
    have hb := one_le_two_pow_any fuel
    rw [h1]
    have h2 : szSels sels * (2 ^ fuel + 1) ≤ (szSels sels + 1) * (2 ^ fuel + 1) :=
      Nat.mul_le_mul_right _ (by omega)
    omega
termination_by _ _ _ _ sel _ _ => sizeOf sel

theorem collectFragmentsListM_len : ∀ (fuel : Nat) (pool : List Definition)
    (m : String → Option Definition) (acc : List Definition) (parentDirs : List DirectiveNode)
    (sels : List SelectionNode) (acc' : List Definition),
    collectFragmentsListM fuel pool m acc parentDirs sels = Except.ok acc' →
    acc'.length ≤ acc.length + szSels sels * (2 ^ fuel + 1)
  | fuel, pool, m, acc, parentDirs, [], acc', h => by
    rw [collectFragmentsListM] at h
    cases h
    simp [szSels]
  | fuel, pool, m, acc, parentDirs, sl :: rest, acc', h => by
    rw [collectFragmentsListM] at h
    split at h
    · exact absurd h (by simp)
    · rename_i acc1 h1
      split at h
      · exact absurd h (by simp)
      · rename_i acc2 h2
        have ha := collectDirectivesM_len fuel pool m acc parentDirs acc1 h1
        have hb := collectFragmentsM_len fuel pool m acc1 sl acc2 h2
        have hc := collectFragmentsListM_len fuel pool m acc2 parentDirs rest acc' h
        simp only [szSels]
        have hexp : (szSel sl + szSels rest + 1) * (2 ^ fuel + 1) =
            szSel sl * (2 ^ fuel + 1) + szSels rest * (2 ^ fuel + 1) + (2 ^ fuel + 1) := by
          ring
        omega
termination_by _ _ _ _ _ sels _ _ => sizeOf sels

end

theorem ne_of_head_char (s : String) (c : Char) (h : s.toList.head? = some c)
    (hc : c ≠ 'm') : s ≠ "model: loop fuel exhausted" := by
  intro he
  rw [he] at h
  have h2 : some 'm' = some c := h
  injection h2 with h3
  exact hc h3.symm

mutual

theorem collectNodeM_err : ∀ (fuel : Nat) (pool : List Definition)
    (m : String → Option Definition) (acc : List Definition) (node : TypedNode)
    (e : String), collectNodeM fuel pool m acc node = Except.error e →
    e ≠ "model: loop fuel exhausted"
  | 0, pool, m, acc, node, e, h => by
    rw [collectNodeM] at h
    injection h with he
    exact he ▸ ne_of_head_char _ 'R' rfl (by decide)
  | Nat.succ fuel, pool, m, acc, node, e, h => by
    rw [collectNodeM] at h
    split at h
    · rename_i e1 hstep
      injection h with he
      subst he
      split at hstep
      · split at hstep
        · injection hstep with he2
          exact he2 ▸ ne_of_head_char _ 'F' rfl (by decide)
        · exact Except.noConfusion hstep
      · exact Except.noConfusion hstep
    · rename_i acc1 hstep
      exact collectDirectivesM_err fuel pool m acc1 node.directives e h
termination_by fuel _ _ _ _ _ _ => fuel

theorem collectDirectivesM_err : ∀ (fuel : Nat) (pool : List Definition)
    (m : String → Option Definition) (acc : List Definition) (dirs : List DirectiveNode)
    (e : String), collectDirectivesM fuel pool m acc dirs = Except.error e →
    e ≠ "model: loop fuel exhausted"
  | fuel, pool, m, acc, [], e, h => by
    rw [collectDirectivesM] at h
    exact Except.noConfusion h
  | 0, pool, m, acc, dir :: rest, e, h => by
    rw [collectDirectivesM] at h
    injection h with he
    exact he ▸ ne_of_head_char _ 'R' rfl (by decide)
  | Nat.succ fuel, pool, m, acc, dir :: rest, e, h => by
    rw [collectDirectivesM] at h
    split at h
    · rename_i e1 h1
      injection h with he
      exact he ▸ collectDirectiveM_err fuel pool m acc dir e1 h1
    · rename_i acc1 h1
      exact collectDirectivesM_err fuel pool m acc1 rest e h
termination_by fuel _ _ _ _ _ _ => fuel

theorem collectDirectiveM_err : ∀ (fuel : Nat) (pool : List Definition)
    (m : String → Option Definition) (acc : List Definition) (dir : DirectiveNode)
    (e : String), collectDirectiveM fuel pool m acc dir = Except.error e →
    e ≠ "model: loop fuel exhausted"
  | 0, pool, m, acc, dir, e, h => by
    rw [collectDirectiveM] at h
    injection h with he
    exact he ▸ ne_of_head_char _ 'R' rfl (by decide)
  | Nat.succ fuel, pool, m, acc, dir, e, h => by
    rw [collectDirectiveM] at h
    split at h
    · split at h
      · injection h with he
        exact he ▸ ne_of_head_char _ 'D' rfl (by decide)
      · split at h
        · rename_i nm1 args1 hm
          split at h
          · rename_i e1 hnodes
            injection h with he
            exact he ▸ collectNodesM_err fuel pool m acc _ e1 hnodes
          · exact Except.noConfusion h
        · injection h with he
          exact he ▸ ne_of_head_char _ 'T' rfl (by decide)
    · exact Except.noConfusion h
termination_by fuel _ _ _ _ _ _ => fuel

theorem collectNodesM_err : ∀ (fuel : Nat) (pool : List Definition)
    (m : String → Option Definition) (acc : List Definition) (nodes : List TypedNode)
    (e : String), collectNodesM fuel pool m acc nodes = Except.error e →
    e ≠ "model: loop fuel exhausted"
  | fuel, pool, m, acc, [], e, h => by
    rw [collectNodesM] at h
    exact Except.noConfusion h
  | 0, pool, m, acc, n :: rest, e, h => by
    rw [collectNodesM] at h
    injection h with he
    exact he ▸ ne_of_head_char _ 'R' rfl (by decide)
  | Nat.succ fuel, pool, m, acc, n :: rest, e, h => by
    rw [collectNodesM] at h
    split at h
    · rename_i e1 h1
      injection h with he
      exact he ▸ collectNodeM_err fuel pool m acc n e1 h1
    · rename_i acc1 h1
      exact collectNodesM_err fuel pool m acc1 rest e h
termination_by fuel _ _ _ _ _ _ => fuel

end

mutual

theorem collectFragmentsM_err : ∀ (fuel : Nat) (pool : List Definition)
    (m : String → Option Definition) (acc : List Definition) (sel : SelectionNode)
    (e : String), collectFragmentsM fuel pool m acc sel = Except.error e →
    e ≠ "model: loop fuel exhausted"
  | fuel, pool, m, acc, .fragmentSpread n ds, e, h => by
    rw [collectFragmentsM] at h
    split at h
    · split at h
      · injection h with he
        exact he ▸ ne_of_head_char _ 'F' rfl (by decide)
      · exact Except.noConfusion h
    · exact Except.noConfusion h
  | fuel, pool, m, acc, .node ds none, e, h => by
    rw [collectFragmentsM] at h
    exact Except.noConfusion h
  | fuel, pool, m, acc, .node ds (some sels), e, h => by
    rw [collectFragmentsM] at h
    exact collectFragmentsListM_err fuel pool m acc ds sels e h
termination_by _ _ _ _ sel _ _ => sizeOf sel

theorem collectFragmentsListM_err : ∀ (fuel : Nat) (pool : List Definition)
    (m : String → Option Definition) (acc : List Definition) (parentDirs : List DirectiveNode)
    (sels : List SelectionNode) (e : String),
    collectFragmentsListM fuel pool m acc parentDirs sels = Except.error e →
    e ≠ "model: loop fuel exhausted"
  | fuel, pool, m, acc, parentDirs, [], e, h => by
    rw [collectFragmentsListM] at h
    exact Except.noConfusion h
  | fuel, pool, m, acc, parentDirs, sl :: rest, e, h => by
    rw [collectFragmentsListM] at h
    split at h
    · rename_i e1 h1
      injection h with he
      exact he ▸ collectDirectivesM_err fuel pool m acc parentDirs e1 h1
    · rename_i acc1 h1
      split at h
      · rename_i e1 h2
        injection h with he
        exact he ▸ collectFragmentsM_err fuel pool m acc1 sl e1 h2
      · rename_i acc2 h2
        exact collectFragmentsListM_err fuel pool m acc2 parentDirs rest e h
termination_by _ _ _ _ _ sels _ _ => sizeOf sels

end

/-- An object type `B` with one `String` field and no interfaces. -/
def sampleObjB : Definition :=
  Definition.objectTypeDef "B" [] [] [⟨"x", [], TypeNode.named "String", []⟩]

/-- A scalar named `T`. -/
def sampleScalarT : Definition := Definition.scalarTypeDef "T" []

/-- An object type also named `T`, declared after `sampleScalarT`. -/
def sampleObjT : Definition := Definition.objectTypeDef "T" [] [] []

theorem find?_append_match {α : Type} (p : α → Bool) :
    ∀ (l1 l2 : List α), (l1 ++ l2).find? p =
    (match l1.find? p with
     | some x => some x
     | none => l2.find? p) := by
  intro l1
  induction l1 with
  | nil => intro l2; rfl
  | cons x xs ih =>
    intro l2
    cases hp : p x with
    | true =>
      rw [List.cons_append, List.find?_cons_of_pos _ hp, List.find?_cons_of_pos _ hp]
    | false =>
      rw [List.cons_append, List.find?_cons_of_neg _ (by simp [hp]),
        List.find?_cons_of_neg _ (by simp [hp])]
      exact ih l2

theorem keyByLookup_foldl_find : ∀ (l : List Definition) (acc : Option Definition)
    (k : String),
    l.foldl (fun acc d => if d.defKey = k then some d else acc) acc =
    (match l.reverse.find? (fun d => d.defKey = k) with
     | some d => some d
     | none => acc) := by
  intro l
  induction l with
  | nil => intro acc k; rfl
  | cons x xs ih =>
    intro acc k
    rw [List.foldl_cons, ih, List.reverse_cons, find?_append_match]
    cases hf : xs.reverse.find? (fun d => decide (d.defKey = k)) with
    | some d => simp only [hf]
    | none =>
      simp only [hf]
      by_cases hk : x.defKey = k
      · rw [List.find?_cons_of_pos _ (by simp [hk])]
        simp [hk]
      · rw [List.find?_cons_of_neg _ (by simp [hk])]
        simp [hk]

/-- C6 (corrected): the claim as stated is refuted by `buildSchemaMap_cex` —
lodash `reverse` mutates `allDefinitions` in place (the sequence IS changed
every iteration), and since `keyBy`'s last occurrence wins, keying the
reversed list makes each name map to the FIRST definition with that name in
the list as it stood at the start of the iteration, not the most recently
declared one.  Amended statement: each iteration replaces `allDefinitions`
by its reversal and builds a map sending each name to the first definition
with that name in the pre-reversal contents. -/
theorem buildSchemaMap_spec (l : List Definition) :
    (buildSchemaMap l).1 = l.reverse ∧
    ∀ k, (buildSchemaMap l).2 k = l.find? (fun d => d.defKey = k) := by
  refine ⟨rfl, ?_⟩
  intro k
  show keyByLookup l.reverse k = _
  unfold keyByLookup
  rw [keyByLookup_foldl_find, List.reverse_reverse]
  cases hf : l.find? (fun d => decide (d.defKey = k)) with
  | some d => rfl
  | none => rfl

/-- C6 counterexample to the unamended claim: with two definitions named
`T`, the map built for the first iteration sends `T` to the FIRST (earliest
declared) of them, and the `allDefinitions` sequence comes out reversed,
i.e. changed. -/
theorem buildSchemaMap_cex :
    (buildSchemaMap [sampleScalarT, sampleObjT]).2 "T" = some sampleScalarT ∧
    sampleScalarT ≠ sampleObjT ∧
    (buildSchemaMap [sampleScalarT, sampleObjT]).1 ≠ [sampleScalarT, sampleObjT] :=
  ⟨rfl, by decide, by decide⟩

def squote : Char := Char.ofNat 39

def isWsChar (c : Char) : Bool :=
  c = ' ' || c = Char.ofNat 9 || c = Char.ofNat 10 || c = Char.ofNat 13 ||
  c = Char.ofNat 11 || c = Char.ofNat 12

def isQuoteChar (c : Char) : Bool := c = squote || c = '"'

/-- A JavaScript line terminator (LF, CR, LS, PS): the characters the
regex metacharacter `.` does NOT match. -/
def isLineTerm (c : Char) : Bool :=
  c = Char.ofNat 10 || c = Char.ofNat 13 || c = Char.ofNat 8232 || c = Char.ofNat 8233

/-- Consume a literal character sequence. -/
def matchLit : List Char → List Char → Option (List Char)
  | [], s => some s
  | _ :: _, [] => none
  | c :: cs, x :: xs => if x = c then matchLit cs xs else none

/-- `\s+`: at least one whitespace character, consumed maximally. -/
def eatWs1 : List Char → Option (List Char)
  | [] => none
  | c :: cs => if isWsChar c then some (cs.dropWhile isWsChar) else none

/-- Greedy `(.*)`: try the longest capture first (recurse, extending the
capture), falling back to the current split on failure — exactly the
backtracking order of a greedy `.*`.  JavaScript `.` does not match line
terminators, so the capture cannot be extended past one. -/
def tryStar {α : Type} (acc : List Char) (rest : List Char)
    (k : List Char → List Char → Option α) : Option α :=
  match rest with
  | [] => k acc []
  | c :: cs =>
    if isLineTerm c then k acc (c :: cs)
    else Option.orElse (tryStar (acc ++ [c]) cs k) (fun _ => k acc (c :: cs))

/-- `('|")(.*)('|");?$`: an opening quote, a greedy capture, a closing quote
(either kind), an optional semicolon, end of input.  Returns the capture. -/
def quoteTail (s : List Char) : Option (List Char) :=
  match s with
  | [] => none
  | c :: cs =>
    if isQuoteChar c then
      tryStar [] cs (fun g4 rest =>
        match rest with
        | q :: qs => if isQuoteChar q && (qs = [] || qs = [';']) then some g4 else none
        | [] => none)
    else none

/-- `\s+from\s+('|")(.*)('|");?$`: the part of `IMPORT_FROM_REGEX` after
the group of imports.  Returns the `from` capture. -/
def fromTail (s : List Char) : Option (List Char) :=
  (eatWs1 s).bind (fun s1 =>
    (matchLit ['f', 'r', 'o', 'm'] s1).bind (fun s2 =>
      (eatWs1 s2).bind quoteTail))

/-- `IMPORT_FROM_REGEX`: returns `(wildcard, importsString?, from)` — the
texts of groups 1, 2 and 4 (`group 2` is `none` when the `*` branch of the
alternation matched, like the `undefined` capture in JavaScript). -/
def matchFrom (s : List Char) : Option (String × Option String × String) :=
  (matchLit ['i', 'm', 'p', 'o', 'r', 't'] s).bind (fun s1 =>
    (eatWs1 s1).bind (fun s2 =>
      Option.orElse
        (match s2 with
          | c :: cs =>
            if c = '*' then (fromTail cs).map (fun g4 => ("*", none, String.mk g4))
            else none
          | [] => none)
        (fun _ =>
          tryStar [] s2 (fun g2 tail =>
            (fromTail tail).map (fun g4 =>
              (String.mk g2, some (String.mk g2), String.mk g4))))))

/-- `IMPORT_DEFAULT_REGEX`: returns the `from` capture (group 2). -/
def matchDefault (s : List Char) : Option String :=
  (matchLit ['i', 'm', 'p', 'o', 'r', 't'] s).bind (fun s1 =>
    (eatWs1 s1).bind (fun s2 => (quoteTail s2).map String.mk))

/-- JavaScript `String.prototype.trim` on a character list. -/
def trimChars (l : List Char) : List Char :=
  ((l.dropWhile isWsChar).reverse.dropWhile isWsChar).reverse

/-- JavaScript `String.prototype.split(sep)` for a one-character separator. -/
def splitOnCharAux (sep : Char) : List Char → List Char → List (List Char)
  | [], cur => [cur.reverse]
  | c :: cs, cur =>
    if c = sep then cur.reverse :: splitOnCharAux sep cs []
    else splitOnCharAux sep cs (c :: cur)

def splitOnChar (sep : Char) (l : List Char) : List (List Char) :=
  splitOnCharAux sep l []

/-- `parseImportLine` (the thrown message is abbreviated to its key line;
the claims below depend only on the success/failure distinction and the
successful payload). -/
def parseImportLine (importLine : String) : Except String (List String × String) :=
  match matchFrom importLine.toList with
  | some (wildcard, importsString, from4) =>
    if from4 ≠ "" then
      Except.ok
        (if wildcard = "*" then ["*"]
         else (splitOnChar ',' (importsString.getD "").toList).map
            (fun t => String.mk (trimChars t)), from4)
    else Except.error ("Import statement is not valid: " ++ importLine)
  | none =>
    match matchDefault importLine.toList with
    | some from2 => Except.ok (["*"], from2)
    | none => Except.error ("Import statement is not valid: " ++ importLine)

/-- JavaScript `String.prototype.replace('#', '')`: remove the first `#`. -/
def replaceFirstHash : List Char → List Char
  | [] => []
  | c :: cs => if c = '#' then cs else c :: replaceFirstHash cs

/-- `parseSDL`. -/
def parseSDL (sdl : String) : Except String (List (List String × String)) :=
  (((splitOnChar (Char.ofNat 10) sdl.toList).map trimChars).filter
    (fun l => ("# import ".toList).isPrefixOf l || ("#import ".toList).isPrefixOf l)).mapM
    (fun l => parseImportLine (String.mk (trimChars (replaceFirstHash l))))

/-- The rendering of an import line body (the text after `# `), per the
specification's reading: the import tokens joined by `", "`, then
` from "`, the path, and a closing quote. -/
def renderImports : List (List Char) → List Char
  | [] => []
  | [t] => t
  | t :: rest => t ++ [',', ' '] ++ renderImports rest

def renderImportLine (ts : List String) (p : String) : String :=
  String.mk (['i', 'm', 'p', 'o', 'r', 't', ' '] ++ renderImports (ts.map String.toList) ++
    [' ', 'f', 'r', 'o', 'm', ' ', '"'] ++ p.toList ++ ['"'])

/-- A hygienic import token: nonempty, and free of commas, quotes,
whitespace, and stars. -/
def CleanToken (t : String) : Prop :=
  t ≠ "" ∧ ∀ c ∈ t.toList, c ≠ ',' ∧ c ≠ '"' ∧ c ≠ squote ∧ c ≠ '*' ∧
    isWsChar c = false ∧ isLineTerm c = false

/-- A hygienic path: nonempty and free of quote characters and of line
terminators (which the regex metacharacter `.` cannot match). -/
def CleanPath (p : String) : Prop :=
  p ≠ "" ∧ ∀ c ∈ p.toList, c ≠ '"' ∧ c ≠ squote ∧ isLineTerm c = false

theorem matchLit_exact : ∀ (lit r : List Char), matchLit lit (lit ++ r) = some r := by
  intro lit
  induction lit with
  | nil => intro r; rfl
  | cons c cs ih =>
    intro r
    simp only [List.cons_append, matchLit, if_pos rfl]
    exact ih r

theorem matchLit_suffix : ∀ (lit s s' : List Char), matchLit lit s = some s' → s' <:+ s := by
  intro lit
  induction lit with
  | nil =>
    intro s s' h
    cases h
    exact List.suffix_rfl
  | cons c cs ih =>
    intro s s' h
    cases s with
    | nil => exact Option.noConfusion h
    | cons x xs =>
      simp only [matchLit] at h
      split at h
      · exact (ih xs s' h).trans (List.suffix_cons x xs)
      · exact Option.noConfusion h

theorem dropWhile_suffix (p : Char → Bool) : ∀ (l : List Char), l.dropWhile p <:+ l := by
  intro l
  induction l with
  | nil => exact List.suffix_rfl
  | cons c cs ih =>
    rw [List.dropWhile_cons]
    split
    · exact ih.trans (List.suffix_cons c cs)
    · exact List.suffix_rfl

theorem eatWs1_suffix {s s' : List Char} (h : eatWs1 s = some s') : s' <:+ s := by
  cases s with
  | nil => exact Option.noConfusion h
  | cons c cs =>
    simp only [eatWs1] at h
    split at h
    · cases h
      exact (dropWhile_suffix isWsChar cs).trans (List.suffix_cons c cs)
    · exact Option.noConfusion h

theorem tryStar_none {α : Type} (k : List Char → List Char → Option α) :
    ∀ (rest acc : List Char), (∀ a b, rest = a ++ b → k (acc ++ a) b = none) →
    tryStar acc rest k = none := by
  intro rest
  induction rest with
  | nil =>
    intro acc h
    have := h [] [] rfl
    rw [List.append_nil] at this
    exact this
  | cons c cs ih =>
    intro acc h
    have h0 := h [] (c :: cs) rfl
    rw [List.append_nil] at h0
    show (if isLineTerm c then k acc (c :: cs)
      else Option.orElse (tryStar (acc ++ [c]) cs k) (fun _ => k acc (c :: cs))) = none
    split
    · exact h0
    · rw [ih (acc ++ [c]) (by
        intro a b hab
        rw [List.append_assoc]
        exact h (c :: a) b (by rw [hab]; rfl))]
      rw [Option.orElse]
      exact h0

theorem tryStar_eq {α : Type} (k : List Char → List Char → Option α) (v : α) :
    ∀ (g2 tail acc : List Char), (∀ c ∈ g2, isLineTerm c = false) →
    (∀ a b, g2 ++ tail = a ++ b → b.length < tail.length → k (acc ++ a) b = none) →
    k (acc ++ g2) tail = some v →
    tryStar acc (g2 ++ tail) k = some v := by
  intro g2
  induction g2 with
  | nil =>
    intro tail acc hg2 hfail hk
    rw [List.append_nil] at hk
    cases tail with
    | nil => exact hk
    | cons c cs =>
      show (if isLineTerm c then k acc (c :: cs)
        else Option.orElse (tryStar (acc ++ [c]) cs k) (fun _ => k acc (c :: cs))) = some v
      split
      · exact hk
      · rw [tryStar_none k cs (acc ++ [c]) (by
          intro a b hab
          rw [List.append_assoc]
          refine hfail (c :: a) b (by rw [List.nil_append, hab]; rfl) ?_
          have : (c :: cs).length = (c :: a).length + b.length := by
            rw [hab]
            simp only [List.length_cons, List.length_append]
            omega
          simp only [List.length_cons] at this ⊢
          omega)]
        rw [Option.orElse]
        exact hk
  | cons c g2' ih =>
    intro tail acc hg2 hfail hk
    show (if isLineTerm c then k acc (c :: (g2' ++ tail))
      else Option.orElse (tryStar (acc ++ [c]) (g2' ++ tail) k)
        (fun _ => k acc (c :: (g2' ++ tail)))) = some v
    rw [if_neg (by
      rw [hg2 c (List.mem_cons_self _ _)]
      exact Bool.false_ne_true)]
    rw [ih tail (acc ++ [c]) (fun d hd => hg2 d (List.mem_cons_of_mem c hd)) (by
        intro a b hab hlen
        rw [List.append_assoc]
        exact hfail (c :: a) b (by rw [List.cons_append, hab]; rfl) hlen)
      (by rw [List.append_assoc]; exact hk)]
    rfl

theorem quoteTail_singleton : quoteTail ['"'] = none := rfl

theorem quoteTail_fail : ∀ (l : List Char), (∀ c ∈ l, isQuoteChar c = false) →
    ∀ s, s <:+ l ++ ['"'] → quoteTail s = none := by
  intro l
  induction l with
  | nil =>
    intro _ s hs
    rcases List.suffix_cons_iff.mp hs with rfl | h2
    · exact quoteTail_singleton
    · rw [List.suffix_nil.mp h2]
      rfl
  | cons c cs ih =>
    intro hq s hs
    rw [List.cons_append] at hs
    rcases List.suffix_cons_iff.mp hs with rfl | h2
    · simp only [quoteTail]
      rw [if_neg]
      simp [hq c (List.mem_cons_self c cs)]
    · exact ih (fun x hx => hq x (List.mem_cons_of_mem c hx)) s h2

theorem fromTail_fail_inner (l : List Char) (hq : ∀ c ∈ l, isQuoteChar c = false) :
    ∀ s, s <:+ l ++ ['"'] → fromTail s = none := by
  intro s hs
  unfold fromTail
  cases h1 : eatWs1 s with
  | none => rfl
  | some s1 =>
    simp only [Option.bind]
    cases h2 : matchLit ['f', 'r', 'o', 'm'] s1 with
    | none => rfl
    | some s2 =>
      simp only [Option.bind]
      cases h3 : eatWs1 s2 with
      | none => rfl
      | some s3 =>
        simp only [Option.bind]
        exact quoteTail_fail l hq s3
          ((((eatWs1_suffix h3).trans (matchLit_suffix _ _ _ h2)).trans
            (eatWs1_suffix h1)).trans hs)

theorem suffix_of_append_lt {a b i t : List Char} (h : i ++ t = a ++ b)
    (hlen : b.length < t.length) : b <:+ t := by
  have hlen2 : i.length + t.length = a.length + b.length := by
    have := congrArg List.length h
    simpa using this
  have hia : i.length ≤ a.length := by omega
  have hb : b = (a ++ b).drop a.length := by
    rw [List.drop_left]
  have ht : t = (i ++ t).drop i.length := by
    rw [List.drop_left]
  rw [h] at ht
  have hab2 : b = t.drop (a.length - i.length) := by
    rw [ht, List.drop_drop]
    first
    | rw [show a.length - i.length + i.length = a.length from by omega]
      exact hb
    | rw [show i.length + (a.length - i.length) = a.length from by omega]
      exact hb
  rw [hab2]
  exact List.drop_suffix _ _

/-- The characters following the imports group in a rendered line. -/
def renderTail (p : List Char) : List Char :=
  [' ', 'f', 'r', 'o', 'm', ' ', '"'] ++ p ++ ['"']

theorem fromTail_ok (p : List Char) (hq : ∀ c ∈ p, isQuoteChar c = false)
    (hnl : ∀ c ∈ p, isLineTerm c = false) :
    fromTail (renderTail p) = some p := by
  unfold fromTail renderTail
  have h1 : eatWs1 ([' ', 'f', 'r', 'o', 'm', ' ', '"'] ++ p ++ ['"']) =
      some (['f', 'r', 'o', 'm', ' ', '"'] ++ p ++ ['"']) := by
    simp only [List.cons_append, List.nil_append, eatWs1]
    rw [if_pos (by decide)]
    rw [List.dropWhile_cons_of_neg (by decide)]
  rw [h1]
  simp only [Option.bind]
  have h2 : matchLit ['f', 'r', 'o', 'm'] (['f', 'r', 'o', 'm', ' ', '"'] ++ p ++ ['"']) =
      some ([' ', '"'] ++ p ++ ['"']) := by
    have := matchLit_exact ['f', 'r', 'o', 'm'] ([' ', '"'] ++ p ++ ['"'])
    simpa using this
  rw [h2]
  simp only [Option.bind]
  have h3 : eatWs1 ([' ', '"'] ++ p ++ ['"']) = some (['"'] ++ p ++ ['"']) := by
    simp only [List.cons_append, List.nil_append, eatWs1]
    rw [if_pos (by decide)]
    rw [List.dropWhile_cons_of_neg (by decide)]
  rw [h3]
  simp only [Option.bind]
  show quoteTail ('"' :: (p ++ ['"'])) = some p
  simp only [quoteTail]
  rw [if_pos (by decide)]
  apply tryStar_eq _ p p ['"'] [] hnl
  · intro a b hab hlen
    simp only [List.length_cons, List.length_nil] at hlen
    have hb : b = [] := List.length_eq_zero.mp (by omega)
    subst hb
    rfl
  · rw [List.nil_append]
    rw [show ((['"'] : List Char) = '"' :: []) from rfl]
    simp only []
    rw [if_pos (by decide)]

theorem fromTail_fail_tail (p : List Char) (hq : ∀ c ∈ p, isQuoteChar c = false) :
    ∀ b, b <:+ renderTail p → b.length < (renderTail p).length → fromTail b = none := by
  intro b hsuf hlen
  unfold renderTail at hsuf hlen
  rw [List.append_assoc] at hsuf
  simp only [List.cons_append, List.nil_append] at hsuf hlen
  rcases List.suffix_cons_iff.mp hsuf with rfl | h1
  · simp at hlen
  · rcases List.suffix_cons_iff.mp h1 with rfl | h2
    · rfl
    · rcases List.suffix_cons_iff.mp h2 with rfl | h3
      · rfl
      · rcases List.suffix_cons_iff.mp h3 with rfl | h4
        · rfl
        · rcases List.suffix_cons_iff.mp h4 with rfl | h5
          · rfl
          · rcases List.suffix_cons_iff.mp h5 with rfl | h6
            · unfold fromTail
              have h1 : eatWs1 (' ' :: '"' :: (p ++ ['"'])) = some ('"' :: (p ++ ['"'])) := by
                simp only [eatWs1]
                rw [if_pos (by decide)]
                rw [List.dropWhile_cons_of_neg (by decide)]
              rw [h1]
              simp only [Option.bind]
              rfl
            · rcases List.suffix_cons_iff.mp h6 with rfl | h7
              · rfl
              · exact fromTail_fail_inner p hq b h7

theorem renderImports_cons (t : List Char) (rest : List (List Char)) :
    ∃ X, renderImports (t :: rest) = t ++ X := by
  cases rest with
  | nil => exact ⟨[], by simp [renderImports]⟩
  | cons r rs =>
    exact ⟨[',', ' '] ++ renderImports (r :: rs), by
      show t ++ [',', ' '] ++ renderImports (r :: rs) = _
      rw [List.append_assoc]⟩

theorem renderImports_chars : ∀ (cts : List (List Char)) (c : Char),
    c ∈ renderImports cts → (∃ t ∈ cts, c ∈ t) ∨ c = ',' ∨ c = ' ' := by
  intro cts
  induction cts with
  | nil => intro c hc; cases hc
  | cons t rest ih =>
    intro c hc
    cases rest with
    | nil =>
      exact Or.inl ⟨t, List.mem_cons_self t [], hc⟩
    | cons r rs =>
      simp only [renderImports, List.append_assoc, List.mem_append] at hc
      rcases hc with h1 | h3 | h4
      · exact Or.inl ⟨t, List.mem_cons_self _ _, h1⟩
      · rcases List.mem_cons.mp h3 with rfl | h5
        · exact Or.inr (Or.inl rfl)
        · rw [List.mem_singleton.mp h5]
          exact Or.inr (Or.inr rfl)
      · rcases ih c h4 with ⟨t2, ht2, hc2⟩ | h6
        · exact Or.inl ⟨t2, List.mem_cons_of_mem _ ht2, hc2⟩
        · exact Or.inr h6

theorem splitAux_acc (sep : Char) : ∀ (l cur : List Char),
    ∃ x xs, splitOnCharAux sep l [] = x :: xs ∧
      splitOnCharAux sep l cur = (cur.reverse ++ x) :: xs := by
  intro l
  induction l with
  | nil =>
    intro cur
    exact ⟨[], [], rfl, by simp [splitOnCharAux]⟩
  | cons c cs ih =>
    intro cur
    by_cases hc : c = sep
    · refine ⟨[], splitOnCharAux sep cs [], ?_, ?_⟩
      · simp [splitOnCharAux, hc]
      · simp [splitOnCharAux, hc]
    · rcases ih (c :: cur) with ⟨x, xs, hx1, hx2⟩
      rcases ih [c] with ⟨x2, xs2, hy1, hy2⟩
      rw [hx1] at hy1
      injection hy1 with he1 he2
      subst he1
      subst he2
      refine ⟨c :: x, xs, ?_, ?_⟩
      · simp only [splitOnCharAux, if_neg hc]
        rw [hy2]
        rfl
      · simp only [splitOnCharAux, if_neg hc]
        rw [hx2, List.reverse_cons, List.append_assoc]
        rfl

theorem splitAux_nosep (sep : Char) : ∀ (t r cur : List Char), (∀ c ∈ t, c ≠ sep) →
    splitOnCharAux sep (t ++ r) cur = splitOnCharAux sep r (t.reverse ++ cur) := by
  intro t
  induction t with
  | nil => intro r cur _; rfl
  | cons c cs ih =>
    intro r cur h
    rw [List.cons_append]
    simp only [splitOnCharAux, if_neg (h c (List.mem_cons_self c cs))]
    rw [ih r (c :: cur) (fun x hx => h x (List.mem_cons_of_mem c hx)),
      List.reverse_cons, List.append_assoc]
    rfl

theorem splitComma_render : ∀ (cts : List (List Char)),
    (∀ t ∈ cts, ∀ c ∈ t, c ≠ ',') →
    splitOnChar ',' (renderImports cts) =
      (match cts with
       | [] => [[]]
       | t :: rest => t :: rest.map (fun t => ' ' :: t)) := by
  intro cts
  induction cts with
  | nil => intro _; rfl
  | cons t rest ih =>
    intro h
    cases rest with
    | nil =>
      show splitOnChar ',' (renderImports [t]) = [t]
      unfold splitOnChar
      have := splitAux_nosep ',' t [] [] (h t (List.mem_cons_self t []))
      rw [show renderImports [t] = t ++ [] from by simp [renderImports], this]
      simp [splitOnCharAux]
    | cons r rs =>
      show splitOnChar ',' (t ++ [',', ' '] ++ renderImports (r :: rs)) = _
      unfold splitOnChar
      rw [List.append_assoc,
        splitAux_nosep ',' t ([',', ' '] ++ renderImports (r :: rs)) []
          (h t (List.mem_cons_self t _)), List.append_nil]
      have hstep : splitOnCharAux ',' ([',', ' '] ++ renderImports (r :: rs)) t.reverse =
          t.reverse.reverse :: splitOnCharAux ',' (renderImports (r :: rs)) [' '] := rfl
      rw [hstep, List.reverse_reverse]
      have hih := ih (fun x hx c hc => h x (List.mem_cons_of_mem t hx) c hc)
      unfold splitOnChar at hih
      rcases splitAux_acc ',' (renderImports (r :: rs)) [' '] with ⟨x, xs, hx1, hx2⟩
      rw [hx1] at hih
      rw [hx2]
      simp only [] at hih
      injection hih with hih1 hih2
      show t :: ([' '].reverse ++ x) :: xs = t :: List.map (fun t => ' ' :: t) (r :: rs)
      rw [List.map_cons, hih1, hih2]
      rfl

theorem trim_nows (t : List Char) (h : ∀ c ∈ t, isWsChar c = false) :
    trimChars t = t := by
  unfold trimChars
  have h1 : t.dropWhile isWsChar = t := by
    cases t with
    | nil => rfl
    | cons c cs => exact List.dropWhile_cons_of_neg (by simp [h c (List.mem_cons_self c cs)])
  rw [h1]
  have h2 : t.reverse.dropWhile isWsChar = t.reverse := by
    cases ht : t.reverse with
    | nil => rfl
    | cons c cs =>
      refine List.dropWhile_cons_of_neg ?_
      have hc : c ∈ t := by
        rw [← List.mem_reverse, ht]
        exact List.mem_cons_self c cs
      simp [h c hc]
  rw [h2, List.reverse_reverse]

theorem trim_space_cons (t : List Char) (h : ∀ c ∈ t, isWsChar c = false) :
    trimChars (' ' :: t) = t := by
  unfold trimChars
  have h1 : (' ' :: t).dropWhile isWsChar = t := by
    rw [List.dropWhile_cons_of_pos (by decide)]
    cases t with
    | nil => rfl
    | cons c cs => exact List.dropWhile_cons_of_neg (by simp [h c (List.mem_cons_self c cs)])
  rw [h1]
  have h2 : t.reverse.dropWhile isWsChar = t.reverse := by
    cases ht : t.reverse with
    | nil => rfl
    | cons c cs =>
      refine List.dropWhile_cons_of_neg ?_
      have hc : c ∈ t := by
        rw [← List.mem_reverse, ht]
        exact List.mem_cons_self c cs
      simp [h c hc]
  rw [h2, List.reverse_reverse]

theorem str_mk_toList (s : String) : String.mk s.toList = s := by
  cases s
  rfl

theorem str_toList_ne {t : String} (h : t ≠ "") : t.toList ≠ [] := by
  intro hl
  apply h
  have h2 := congrArg String.mk hl
  rw [str_mk_toList] at h2
  exact h2

theorem str_mk_ne_empty {l : List Char} (h : l ≠ []) : String.mk l ≠ "" := by
  intro he
  exact h (congrArg String.data he)

theorem map_trim_space : ∀ (l : List String),
    (∀ t ∈ l, ∀ c ∈ t.toList, isWsChar c = false) →
    ((l.map String.toList).map (fun t => ' ' :: t)).map
      (fun t => String.mk (trimChars t)) = l := by
  intro l
  induction l with
  | nil => intro _; rfl
  | cons t rest ih =>
    intro h
    simp only [List.map_cons]
    rw [trim_space_cons t.toList (fun c hc => h t (List.mem_cons_self _ _) c hc),
      str_mk_toList, ih (fun t2 ht2 => h t2 (List.mem_cons_of_mem _ ht2))]

theorem parseImportLine_render (ts : List String) (p : String)
    (hts : ts ≠ []) (hct : ∀ t ∈ ts, CleanToken t) (hp : CleanPath p) :
    parseImportLine (renderImportLine ts p) = Except.ok (ts, p) := by
  obtain ⟨t1, rest, rfl⟩ : ∃ t1 rest, ts = t1 :: rest := by
    cases ts with
    | nil => exact absurd rfl hts
    | cons a b => exact ⟨a, b, rfl⟩
  have hqp : ∀ c ∈ p.toList, isQuoteChar c = false := by
    intro c hc
    rcases hp.2 c hc with ⟨h1, h2, h3⟩
    simp [isQuoteChar, h1, h2]
  have hnlp : ∀ c ∈ p.toList, isLineTerm c = false := fun c hc => (hp.2 c hc).2.2
  obtain ⟨X, hX⟩ := renderImports_cons t1.toList (rest.map String.toList)
  obtain ⟨c1, t1tl, ht1⟩ : ∃ c t, t1.toList = c :: t := by
    cases h : t1.toList with
    | nil => exact absurd h (str_toList_ne (hct t1 (List.mem_cons_self _ _)).1)
    | cons a b => exact ⟨a, b, rfl⟩
  have hc1 := (hct t1 (List.mem_cons_self _ _)).2 c1 (by rw [ht1]; exact List.mem_cons_self _ _)
  have hLlist : (renderImportLine (t1 :: rest) p).toList =
      ['i', 'm', 'p', 'o', 'r', 't'] ++
        (' ' :: (renderImports ((t1 :: rest).map String.toList) ++ renderTail p.toList)) := by
    show (['i', 'm', 'p', 'o', 'r', 't', ' '] ++ renderImports ((t1 :: rest).map String.toList) ++
      [' ', 'f', 'r', 'o', 'm', ' ', '"'] ++ p.toList ++ ['"']) = _
    simp [renderTail, List.append_assoc]
  have hI : renderImports ((t1 :: rest).map String.toList) ++ renderTail p.toList =
      c1 :: (t1tl ++ X ++ renderTail p.toList) := by
    rw [List.map_cons, hX, ht1]
    simp [List.append_assoc]
  have hmf : matchFrom (renderImportLine (t1 :: rest) p).toList =
      some (String.mk (renderImports ((t1 :: rest).map String.toList)),
        some (String.mk (renderImports ((t1 :: rest).map String.toList))),
        String.mk p.toList) := by
    rw [hLlist]
    unfold matchFrom
    rw [matchLit_exact]
    simp only [Option.bind]
    have hws : eatWs1 (' ' :: (renderImports ((t1 :: rest).map String.toList) ++
        renderTail p.toList)) =
        some (renderImports ((t1 :: rest).map String.toList) ++ renderTail p.toList) := by
      simp only [eatWs1]
      rw [if_pos (by decide), hI]
      rw [List.dropWhile_cons_of_neg (by simp [hc1.2.2.2.2.1])]
    rw [hws]
    simp only [Option.bind]
    rw [hI]
    simp only []
    rw [if_neg hc1.2.2.2.1]
    simp only [Option.orElse]
    rw [← hI]
    exact tryStar_eq (fun g2 tail =>
        (fromTail tail).map (fun g4 => (String.mk g2, some (String.mk g2), String.mk g4)))
      (String.mk (renderImports ((t1 :: rest).map String.toList)),
        some (String.mk (renderImports ((t1 :: rest).map String.toList))), String.mk p.toList)
      (renderImports ((t1 :: rest).map String.toList)) (renderTail p.toList) []
      (by
        intro c hc
        rcases renderImports_chars _ c hc with ⟨t2, ht2, hc2⟩ | h2 | h3
        · rcases List.mem_map.mp ht2 with ⟨t3, ht3, rfl⟩
          exact ((hct t3 ht3).2 c hc2).2.2.2.2.2
        · rw [h2]; rfl
        · rw [h3]; rfl)
      (by
        intro a b hab hlen
        have hsuf : b <:+ renderTail p.toList := suffix_of_append_lt hab hlen
        simp only []
        rw [fromTail_fail_tail p.toList hqp b hsuf hlen]
        rfl)
      (by
        simp only [List.nil_append]
        rw [fromTail_ok p.toList hqp hnlp]
        rfl)
  unfold parseImportLine
  rw [hmf]
  simp only []
  rw [if_pos (str_mk_ne_empty (str_toList_ne hp.1))]
  rw [if_neg (by
    intro hstar
    have hIl : renderImports ((t1 :: rest).map String.toList) = ['*'] :=
      congrArg String.data hstar
    have hmem : '*' ∈ renderImports ((t1 :: rest).map String.toList) := by
      rw [hIl]
      exact List.mem_singleton.mpr rfl
    rcases renderImports_chars _ '*' hmem with ⟨t2, ht2, hc2⟩ | h2 | h3
    · rcases List.mem_map.mp ht2 with ⟨t3, ht3, rfl⟩
      exact (hct t3 ht3).2 '*' hc2 |>.2.2.2.1 rfl
    · exact absurd h2 (by decide)
    · exact absurd h3 (by decide))]
  have hsplit : ((splitOnChar ','
      ((Option.some (String.mk (renderImports ((t1 :: rest).map String.toList)))).getD
        "").toList).map (fun t => String.mk (trimChars t))) = t1 :: rest := by
    have htl : ((Option.some (String.mk
        (renderImports ((t1 :: rest).map String.toList)))).getD "").toList =
        renderImports ((t1 :: rest).map String.toList) := rfl
    rw [htl, splitComma_render ((t1 :: rest).map String.toList) (by
      intro t ht c hc
      rcases List.mem_map.mp ht with ⟨t3, ht3, rfl⟩
      exact ((hct t3 ht3).2 c hc).1)]
    show ((t1.toList :: ((rest.map String.toList).map (fun t => ' ' :: t))).map
      (fun t => String.mk (trimChars t))) = t1 :: rest
    rw [List.map_cons,
      trim_nows t1.toList (fun c hc => ((hct t1 (List.mem_cons_self _ _)).2 c hc).2.2.2.2.1),
      str_mk_toList,
      map_trim_space rest (fun t2 ht2 c hc =>
        ((hct t2 (List.mem_cons_of_mem _ ht2)).2 c hc).2.2.2.2.1)]
  rw [hsplit, str_mk_toList]

/-- C8 (corrected): the claim as stated is refuted by
`parseImportLine_roundtrip_cex` — a comma-free, quote-free token with a
trailing space is altered by the post-split `trim`, so rendering then
parsing does not return the original list.  Amended statement: the two
concrete instances hold through `parseSDL`'s comment-line scan, and the
general law holds for hygienic tokens (nonempty, free of commas, quotes,
stars, whitespace and line terminators) and hygienic paths (nonempty, free
of quote characters and line terminators).  Line terminators must be
excluded because the regex metacharacter `.` does not match them: a quoted
path containing a newline makes both import regexes fail and
`parseImportLine` throw, as the final conjunct shows. -/
theorem parseImportLine_roundtrip :
    parseSDL "# import A, B.c from \"x.graphql\"" =
      Except.ok [(["A", "B.c"], "x.graphql")] ∧
    parseSDL "# import \"x.graphql\"" = Except.ok [(["*"], "x.graphql")] ∧
    (∀ (ts : List String) (p : String), ts ≠ [] → (∀ t ∈ ts, CleanToken t) →
      CleanPath p → parseImportLine (renderImportLine ts p) = Except.ok (ts, p)) ∧
    parseImportLine (renderImportLine ["A"] (String.mk ['a', Char.ofNat 10, 'b'])) =
      Except.error ("Import statement is not valid: " ++
        renderImportLine ["A"] (String.mk ['a', Char.ofNat 10, 'b'])) :=
  ⟨rfl, rfl, parseImportLine_render, rfl⟩

/-- C8 counterexample to the unamended claim: the token `"A "` is comma-free
and quote-free, yet rendering and re-parsing trims it to `"A"`. -/
theorem parseImportLine_roundtrip_cex :
    parseImportLine (renderImportLine ["A "] "x.graphql") =
      Except.ok (["A"], "x.graphql") ∧
    (["A"] : List String) ≠ ["A "] :=
  ⟨rfl, by decide⟩

theorem parseImportLine_roundtrip_witness :
    parseImportLine (renderImportLine ["A", "B.c"] "x.graphql") =
      Except.ok (["A", "B.c"], "x.graphql") :=
  parseImportLine_roundtrip.2.2.1 ["A", "B.c"] "x.graphql" (by decide)
    (by
      intro t ht
      rcases List.mem_cons.mp ht with rfl | h2
      · exact ⟨by decide, by decide⟩
      · rw [List.mem_singleton.mp h2]
        exact ⟨by decide, by decide⟩)
    ⟨by decide, by decide⟩

/-!
## Claims C2 and C10: the import-collection machinery

`collectDefinitions(Sync)` and its helpers mutate shared AST nodes
(`filterImportedDefinitions` rewrites a definition's `fields` array in
place), so the embedding gives definitions object identity: nodes live in a
`store` (the heap), and `typeDefinitions` / `allDefinitions` hold node
identifiers.  External facilities (the file system resolution of
`resolveModuleFilePath`, file loading and graphql parsing inside
`loadFile(Sync)`, and the `compareNodes` comparator from
`@graphql-toolkit/common`) are supplied by an environment record.  The
unbounded recursion of `collectDefinitions(Sync)` is fuelled; exhaustion is
a distinguished error no modelled `throw` produces.
-/

structure RawModule where
  frm : String
  imports : List String
  deriving DecidableEq, Repr

/-- A source inside the import subsystem: `docIds` are the identifiers of
its document's definition nodes. -/
structure ImpSource where
  location : String
  rawSDL : String
  docIds : List Nat
  deriving DecidableEq, Repr

/-- `store` is the heap of definition nodes; `typeDefs` and `allDefs` are
the two accumulators; `processed` is `options.processedFiles`. -/
structure ImpState where
  store : List Definition
  typeDefs : List (List Nat)
  allDefs : List (List Nat)
  processed : List (String × List RawModule)
  deriving DecidableEq

structure ImpEnv where
  hasFsPath : Bool
  resolveFp : String → String → String
  fileSDL : String → String
  fileDefs : String → List Definition
  sortFieldsOf : Definition → Definition
  sortFieldNodes : List FieldDefNode → List FieldDefNode
  sortInputFields : List InputValueDef → List InputValueDef

def lookupAssoc {α : Type} (l : List (String × α)) (k : String) : Option α :=
  match l.find? (fun p => p.1 = k) with
  | some p => some p.2
  | none => none

def setAssoc {α : Type} (l : List (String × α)) (k : String) (v : α) : List (String × α) :=
  if l.any (fun p => p.1 = k) then l.map (fun p => if p.1 = k then (k, v) else p)
  else l ++ [(k, v)]

def getDef (store : List Definition) (id : Nat) : Definition :=
  store.getD id (Definition.scalarTypeDef "" [])

def setDef (store : List Definition) (id : Nat) (d : Definition) : List Definition :=
  store.set id d

def getDefs (store : List Definition) (ids : List Nat) : List Definition :=
  ids.map (getDef store)

/-- `'fields' in d`. -/
def hasFields : Definition → Bool
  | .objectTypeDef _ _ _ _ => true
  | .interfaceTypeDef _ _ _ => true
  | .inputObjectTypeDef _ _ _ => true
  | _ => false

/-- `d.fields = d.fields.filter((f) => keep(f.name.value))`. -/
def filterFieldsOf (d : Definition) (keep : String → Bool) : Definition :=
  match d with
  | .objectTypeDef n i ds fs => .objectTypeDef n i ds (fs.filter (fun f => keep f.name))
  | .interfaceTypeDef n ds fs => .interfaceTypeDef n ds (fs.filter (fun f => keep f.name))
  | .inputObjectTypeDef n ds fs => .inputObjectTypeDef n ds (fs.filter (fun f => keep f.name))
  | d => d

/-- `i.split('.')[0]`. -/
def tokenRoot (i : String) : String := String.mk ((splitOnChar '.' i.toList).headD [])

/-- `i.split('.')[1]`. -/
def tokenField (i : String) : String := String.mk ((splitOnChar '.' i.toList).getD 1 [])

/-- `i.split('.').length`. -/
def tokenParts (i : String) : Nat := (splitOnChar '.' i.toList).length

/-- The key order of a lodash `groupBy` object: first occurrence wins. -/
def dedupFirst (l : List String) : List String :=
  l.foldl (fun acc x => if acc.contains x then acc else acc ++ [x]) []

/-- `groupedFieldImports[rootType].map((x) => x.split('.')[1])`. -/
def rootFields (fieldImports : List String) (root : String) : List String :=
  (fieldImports.filter (fun x => tokenRoot x = root)).map tokenField

/-- The optional `compareNodes` sort applied to a mutated node. -/
def maybeSort (env : ImpEnv) (srt : Bool) (d : Definition) : Definition :=
  if srt then env.sortFieldsOf d else d

/-- One turn of the `for (const rootType in groupedFieldImports)` loop:
find the named definition among the (unfiltered) type definitions and
replace its `fields` array in place with the requested fields. -/
def fieldScopeStep (env : ImpEnv) (srt : Bool) (typeDefIds : List Nat)
    (fieldImports : List String) (st : List Definition) (root : String) :
    List Definition :=
  match typeDefIds.find? (fun id => (getDef st id).uniqKey = some root) with
  | some id =>
    if hasFields (getDef st id) ∧ ¬ (rootFields fieldImports root).contains "*" then
      setDef st id (maybeSort env srt (filterFieldsOf (getDef st id)
        (fun fn => (rootFields fieldImports root).contains fn ||
          (rootFields fieldImports root).contains "*")))
    else st
  | none => st

/-- `filterImportedDefinitions`, returning the (possibly mutated) store and
the ids of the filtered definitions. -/
def filterImportedDefinitionsM (env : ImpEnv) (imports : List String)
    (typeDefIds : List Nat) (allDefIds : List (List Nat)) (srt : Bool)
    (store : List Definition) : List Definition × List Nat :=
  if imports.contains "*" then
    if imports.length = 1 ∧ imports.headD "" = "*" ∧ allDefIds.length > 1 then
      let prevNames := (((allDefIds.take (allDefIds.length - 1)).flatten).map
        (getDef store)).filterMap Definition.uniqKey
      (store, typeDefIds.filter (fun id =>
        match getDef store id with
        | Definition.objectTypeDef n _ _ _ => prevNames.contains n
        | _ => false))
    else (store, typeDefIds)
  else
    ((dedupFirst ((imports.filter (fun i => tokenParts i > 1)).map tokenRoot)).foldl
      (fieldScopeStep env srt typeDefIds (imports.filter (fun i => tokenParts i > 1))) store,
     typeDefIds.filter (fun id =>
      match (getDef store id).uniqKey with
      | some n => (imports.map tokenRoot).contains n
      | none => false))

/-- `preapreRawModules` (the typo is the source's). -/
def preapreRawModulesM (env : ImpEnv) (imports : List String) (src : ImpSource)
    (srt : Bool) (st : ImpState) : Except String (ImpState × List RawModule) := do
  let allDefs2 := st.allDefs ++ [src.docIds]
  let fr := filterImportedDefinitionsM env imports src.docIds allDefs2 srt st.store
  let mods ← parseSDL src.rawSDL
  Except.ok ({ st with store := fr.1, allDefs := allDefs2, typeDefs := st.typeDefs ++ [fr.2] },
    mods.map (fun m => ⟨m.2, m.1⟩))

/-- `canProcess`: true (and record the pair) when this exact
(filepath, module) pair has not been seen. -/
def canProcessM (processed : List (String × List RawModule)) (filepath : String)
    (m : RawModule) : Bool × List (String × List RawModule) :=
  match lookupAssoc processed filepath with
  | none => (true, setAssoc processed filepath [m])
  | some pf =>
    if pf.contains m then (false, processed)
    else (true, setAssoc processed filepath (pf ++ [m]))

/-- `resolveModuleFilePath`: without `fs` and `path` facilities the import
path is returned as-is; with them the resolution is the external
[realpath / resolve-from] computation supplied by the environment. -/
def resolveModuleFilePathM (env : ImpEnv) (filePath importFrom : String) : String :=
  if env.hasFsPath then env.resolveFp filePath importFrom else importFrom

/-- `loadFileSync` as seen by the import subsystem: the file's document is
parsed afresh (the pointer cache is only written by `collectSources`'s
`addSource` and holds no entries for these resolved paths), allocating new
nodes. -/
def loadFileSyncM (env : ImpEnv) (st : ImpState) (fp : String) : ImpState × ImpSource :=
  let defs := env.fileDefs fp
  let ids := (List.range defs.length).map (fun i => i + st.store.length)
  ({ st with store := st.store ++ defs }, ⟨fp, env.fileSDL fp, ids⟩)

def collectDefinitionsSyncM (env : ImpEnv) : Nat → List String → ImpSource → Bool →
    ImpState → Except String ImpState
  | 0, _, _, _, _ => Except.error "model: import fuel exhausted"
  | Nat.succ f, imports, src, srt, st => do
    let pr ← preapreRawModulesM env imports src srt st
    pr.2.foldlM (fun st m =>
      let fp := resolveModuleFilePathM env src.location m.frm
      let cp := canProcessM st.processed fp m
      if cp.1 then
        let ls := loadFileSyncM env { st with processed := cp.2 } fp
        collectDefinitionsSyncM env f m.imports ls.2 srt ls.1
      else Except.ok { st with processed := cp.2 }) pr.1
termination_by structural fuel _ _ _ _ => fuel

def fieldNodesOf : Definition → List FieldDefNode
  | .objectTypeDef _ _ _ fs => fs
  | .interfaceTypeDef _ _ fs => fs
  | _ => []

def inputFieldsOf : Definition → List InputValueDef
  | .inputObjectTypeDef _ _ fs => fs
  | _ => []

def uniqByNameField (fs : List FieldDefNode) : List FieldDefNode :=
  fs.foldl (fun acc f => if acc.any (fun g => g.name = f.name) then acc else acc ++ [f]) []

def uniqByNameInput (fs : List InputValueDef) : List InputValueDef :=
  fs.foldl (fun acc f => if acc.any (fun g => g.name = f.name) then acc else acc ++ [f]) []

/-- `existingType.fields = uniqBy(existingType.fields.concat(type.fields),
'name.value')` (with the optional sort), on the kinds that carry fields. -/
def mergeFieldsInto (env : ImpEnv) (srt : Bool) (ex typ : Definition) : Definition :=
  match ex with
  | .objectTypeDef n i ds _ =>
    let fs := uniqByNameField (fieldNodesOf ex ++ fieldNodesOf typ)
    .objectTypeDef n i ds (if srt then env.sortFieldNodes fs else fs)
  | .interfaceTypeDef n ds _ =>
    let fs := uniqByNameField (fieldNodesOf ex ++ fieldNodesOf typ)
    .interfaceTypeDef n ds (if srt then env.sortFieldNodes fs else fs)
  | .inputObjectTypeDef n ds _ =>
    let fs := uniqByNameInput (inputFieldsOf ex ++ inputFieldsOf typ)
    .inputObjectTypeDef n ds (if srt then env.sortInputFields fs else fs)
  | d => d

/-- `process$1`: build `firstSet`, run the name-merging loop (which mutates
the store), and hand everything to `completeDefinitionPool`. -/
def process1M (env : ImpEnv) (st : ImpState) (srt : Bool) : Except String (List Definition) :=
  let firstTypes := st.typeDefs.flatten
  let secondFirstTypes := st.typeDefs.headD []
  let otherFirstTypes := (st.typeDefs.drop 1).flatten
  let firstSet := firstTypes ++ secondFirstTypes ++ otherFirstTypes
  let store2 := (firstSet.foldl (fun acc id =>
    let d := getDef acc.1 id
    match d.uniqKey with
    | some n =>
      if ¬ acc.2.1.contains n then (acc.1, acc.2.1 ++ [n], acc.2.2 ++ [id])
      else
        match acc.2.2.find? (fun j => (getDef acc.1 j).uniqKey = some n) with
        | some j =>
          if hasFields (getDef acc.1 j) then
            (setDef acc.1 j (mergeFieldsInto env srt (getDef acc.1 j) d), acc.2.1, acc.2.2)
          else acc
        | none => acc
    | none => acc) (st.store, ([] : List String), ([] : List Nat))).1
  completeDefinitionPool (getDefs store2 st.allDefs.flatten) (getDefs store2 firstSet)
    (getDefs store2 st.typeDefs.flatten)

/-- `processImportSyntaxSync` threading an ambient state (`allDefinitions`
and `options.processedFiles` persist across sources of one `loadTypedefs`
call; `typeDefinitions` is fresh per call). -/
def processImportSyntaxSyncStM (env : ImpEnv) (fuel : Nat) (src : ImpSource) (srt : Bool)
    (st : ImpState) : Except String (List Definition × ImpState) := do
  let st1 ← collectDefinitionsSyncM env fuel ["*"] src srt { st with typeDefs := [] }
  let pool ← process1M env st1 srt
  Except.ok (pool, st1)

/-- `processImportSyntaxSync` standalone, as called on a single document
source. -/
def processImportSyntaxSyncM (env : ImpEnv) (fuel : Nat) (location rawSDL : String)
    (docDefs : List Definition) (srt : Bool) : Except String (List Definition) :=
  (processImportSyntaxSyncStM env fuel ⟨location, rawSDL, List.range docDefs.length⟩ srt
    ⟨docDefs, [], [], []⟩).map (fun r => r.1)

/-- A run of `processImportSyntaxSync` decomposed into its two stages (used
to evaluate concrete runs one stage at a time). -/
theorem processImportSyntaxSyncM_eq (env : ImpEnv) (fuel : Nat) (loc raw : String)
    (docDefs : List Definition) (srt : Bool) (st1 : ImpState) (pool : List Definition)
    (h1 : collectDefinitionsSyncM env fuel ["*"] ⟨loc, raw, List.range docDefs.length⟩ srt
      ⟨docDefs, [], [], []⟩ = Except.ok st1)
    (h2 : process1M env st1 srt = Except.ok pool) :
    processImportSyntaxSyncM env fuel loc raw docDefs srt = Except.ok pool := by
  unfold processImportSyntaxSyncM processImportSyntaxSyncStM
  rw [show collectDefinitionsSyncM env fuel ["*"] ⟨loc, raw, List.range docDefs.length⟩ srt
      { (⟨docDefs, [], [], []⟩ : ImpState) with typeDefs := [] } = Except.ok st1 from h1,
    Except_ok_bind, h2, Except_ok_bind]
  rfl

/-- `(filepath, module)` has been recorded in `options.processedFiles`. -/
def pairDone (processed : List (String × List RawModule)) (fp : String)
    (m : RawModule) : Prop :=
  ∃ pf, lookupAssoc processed fp = some pf ∧ m ∈ pf

theorem rm_contains_iff (l : List RawModule) (m : RawModule) :
    l.contains m = true ↔ m ∈ l := by
  simp

theorem lookup_setAssoc_self {α : Type} (l : List (String × α)) (k : String) (v : α) :
    lookupAssoc (setAssoc l k v) k = some v := by
  unfold setAssoc
  split
  · rename_i hany
    unfold lookupAssoc
    rcases List.any_eq_true.mp hany with ⟨p, hp, hpk⟩
    have hk := decide_eq_true_eq.mp hpk
    induction l with
    | nil => cases hp
    | cons q qs ih =>
      by_cases hq : q.1 = k
      · simp only [List.map_cons, if_pos hq]
        rw [List.find?_cons_of_pos _ (by simp)]
      · simp only [List.map_cons, if_neg hq]
        rw [List.find?_cons_of_neg _ (by simp [hq])]
        rcases List.mem_cons.mp hp with rfl | hp2
        · exact absurd hk hq
        · exact ih (List.any_eq_true.mpr ⟨p, hp2, hpk⟩) hp2
  · unfold lookupAssoc
    rename_i hany
    induction l with
    | nil =>
      simp only [List.nil_append]
      rw [List.find?_cons_of_pos _ (by simp)]
    | cons q qs ih =>
      have hq : ¬ q.1 = k := by
        intro hq
        exact hany (List.any_eq_true.mpr ⟨q, List.mem_cons_self _ _, decide_eq_true_eq.mpr hq⟩)
      rw [List.cons_append, List.find?_cons_of_neg _ (by simp [hq])]
      exact ih (fun h2 => hany (by
        rcases List.any_eq_true.mp h2 with ⟨p, hp, hpk⟩
        exact List.any_eq_true.mpr ⟨p, List.mem_cons_of_mem _ hp, hpk⟩))

theorem lookup_setAssoc_other {α : Type} (l : List (String × α)) (k k' : String) (v : α)
    (hne : k' ≠ k) : lookupAssoc (setAssoc l k v) k' = lookupAssoc l k' := by
  unfold setAssoc
  split
  · rename_i hany
    clear hany
    unfold lookupAssoc
    induction l with
    | nil => rfl
    | cons q qs ih =>
      simp only [List.map_cons]
      by_cases hq : q.1 = k
      · rw [if_pos hq]
        rw [List.find?_cons_of_neg _ (by exact fun hh => hne (decide_eq_true_eq.mp hh).symm),
          List.find?_cons_of_neg _
            (by exact fun hh => hne ((decide_eq_true_eq.mp hh).symm.trans hq))]
        exact ih
      · rw [if_neg hq]
        by_cases hq2 : q.1 = k'
        · rw [List.find?_cons_of_pos _ (by exact decide_eq_true_eq.mpr hq2),
            List.find?_cons_of_pos _ (by exact decide_eq_true_eq.mpr hq2)]
        · rw [List.find?_cons_of_neg _ (by exact fun hh => hq2 (decide_eq_true_eq.mp hh)),
            List.find?_cons_of_neg _ (by exact fun hh => hq2 (decide_eq_true_eq.mp hh))]
          exact ih
  · unfold lookupAssoc
    rw [find?_append_match]
    cases hf : l.find? (fun p => decide (p.1 = k')) with
    | some p => rfl
    | none =>
      simp only []
      rw [List.find?_cons_of_neg _ (by exact fun hh => hne (decide_eq_true_eq.mp hh).symm),
        List.find?_nil]

theorem canProcessM_records (p : List (String × List RawModule)) (fp : String)
    (m : RawModule) : pairDone (canProcessM p fp m).2 fp m := by
  unfold canProcessM
  cases h : lookupAssoc p fp with
  | none =>
    exact ⟨[m], lookup_setAssoc_self p fp [m], List.mem_singleton.mpr rfl⟩
  | some pf =>
    simp only []
    split
    · rename_i hc
      exact ⟨pf, h, (rm_contains_iff pf m).mp hc⟩
    · exact ⟨pf ++ [m], lookup_setAssoc_self p fp (pf ++ [m]),
        List.mem_append.mpr (Or.inr (List.mem_singleton.mpr rfl))⟩

theorem canProcessM_mono (p : List (String × List RawModule)) (fp : String)
    (m : RawModule) (fp' : String) (m' : RawModule) (hd : pairDone p fp' m') :
    pairDone (canProcessM p fp m).2 fp' m' := by
  rcases hd with ⟨pf', hl', hm'⟩
  unfold canProcessM
  cases h : lookupAssoc p fp with
  | none =>
    by_cases hfp : fp' = fp
    · subst hfp
      rw [h] at hl'
      exact Option.noConfusion hl'
    · exact ⟨pf', by rw [lookup_setAssoc_other p fp fp' [m] hfp]; exact hl', hm'⟩
  | some pf =>
    simp only []
    split
    · exact ⟨pf', hl', hm'⟩
    · by_cases hfp : fp' = fp
      · subst hfp
        rw [h] at hl'
        cases hl'
        exact ⟨pf' ++ [m], lookup_setAssoc_self p fp' (pf' ++ [m]),
          List.mem_append.mpr (Or.inl hm')⟩
      · exact ⟨pf', by rw [lookup_setAssoc_other p fp fp' (pf ++ [m]) hfp]; exact hl', hm'⟩

theorem canProcessM_false_of_done (p : List (String × List RawModule)) (fp : String)
    (m : RawModule) (hd : pairDone p fp m) : (canProcessM p fp m).1 = false := by
  rcases hd with ⟨pf, hl, hm⟩
  unfold canProcessM
  rw [hl]
  simp only []
  rw [if_pos ((rm_contains_iff pf m).mpr hm)]

/-- A sequence of further `canProcess` calls, through their state updates. -/
def applyCanProcess (p : List (String × List RawModule))
    (ops : List (String × RawModule)) : List (String × List RawModule) :=
  ops.foldl (fun p op => (canProcessM p op.1 op.2).2) p

theorem applyCanProcess_mono (ops : List (String × RawModule))
    (p : List (String × List RawModule)) (fp : String) (m : RawModule)
    (hd : pairDone p fp m) : pairDone (applyCanProcess p ops) fp m := by
  induction ops generalizing p with
  | nil => exact hd
  | cons op rest ih =>
    exact ih (canProcessM p op.1 op.2).2 (canProcessM_mono p op.1 op.2 fp m hd)

/-- The two mutually wildcard-importing files of the cycle-safety scenario,
with cross references so the completion pulls both definitions in. -/
def sdlFileA : String := "# import * from \"b.graphql\""
def sdlFileB : String := "# import * from \"a.graphql\""
def defQuery : Definition :=
  Definition.objectTypeDef "Query" [] [] [⟨"b", [], TypeNode.named "B", []⟩]
def defTypeB : Definition :=
  Definition.objectTypeDef "B" [] [] [⟨"q", [], TypeNode.named "Query", []⟩]
def envAB : ImpEnv :=
  ⟨false, fun _ i => i, fun fp => if fp = "b.graphql" then sdlFileB else sdlFileA,
    fun fp => if fp = "b.graphql" then [defTypeB] else [defQuery], id, id, id⟩

/-- The state after the worklist of the cycle scenario settles: the
definitions of file `a` were pushed twice (once per entry into the cycle),
and the import line of each file was processed exactly once. -/
def stCycleFinal : ImpState :=
  ⟨[defQuery, defTypeB, defQuery], [[0], [], [2]], [[0], [1], [2]],
    [("b.graphql", [⟨"b.graphql", ["*"]⟩]), ("a.graphql", [⟨"a.graphql", ["*"]⟩])]⟩

/-- C2: `canProcess` answers true at most once per (filepath, module) pair —
after one call (whatever it answered) the pair is recorded and every later
call on any descendant state answers false — and the mutual wildcard-import
cycle resolves: the run terminates (3 recursion levels suffice; the fuelled
model returns normally) and the resulting definition set holds each file's
definitions exactly once. -/
theorem canProcess_once_and_cycle :
    (∀ (p : List (String × List RawModule)) (fp : String) (m : RawModule)
      (ops : List (String × RawModule)),
      (canProcessM (applyCanProcess (canProcessM p fp m).2 ops) fp m).1 = false) ∧
    processImportSyntaxSyncM envAB 3 "a.graphql" sdlFileA [defQuery] false =
      Except.ok [defQuery, defTypeB] ∧
    [defQuery, defTypeB].count defQuery = 1 ∧
    [defQuery, defTypeB].count defTypeB = 1 := by
  refine ⟨?_, ?_, by decide, by decide⟩
  · intro p fp m ops
    exact canProcessM_false_of_done _ fp m
      (applyCanProcess_mono ops _ fp m (canProcessM_records p fp m))
  · exact processImportSyntaxSyncM_eq envAB 3 "a.graphql" sdlFileA [defQuery] false
      stCycleFinal [defQuery, defTypeB] rfl rfl

theorem str_toList_append (a b : String) : (a ++ b).toList = a.toList ++ b.toList := by
  cases a
  cases b
  rfl

theorem splitDot_token (R f : String) (hR : ∀ c ∈ R.toList, c ≠ '.')
    (hf : ∀ c ∈ f.toList, c ≠ '.') :
    splitOnChar '.' ((R ++ "." ++ f).toList) = [R.toList, f.toList] := by
  have h1 : (R ++ "." ++ f).toList = R.toList ++ ('.' :: f.toList) := by
    rw [str_toList_append, str_toList_append]
    simp [List.append_assoc]
  rw [h1]
  unfold splitOnChar
  rw [splitAux_nosep '.' R.toList ('.' :: f.toList) [] hR]
  have hstep : ∀ (cur : List Char), splitOnCharAux '.' ('.' :: f.toList) cur =
      cur.reverse :: splitOnCharAux '.' f.toList [] := by
    intro cur
    simp [splitOnCharAux]
  rw [hstep, List.append_nil, List.reverse_reverse]
  have h2 := splitAux_nosep '.' f.toList [] [] hf
  rw [List.append_nil] at h2
  rw [h2]
  have h3 : splitOnCharAux '.' [] (f.toList.reverse ++ []) =
      [(f.toList.reverse ++ []).reverse] := rfl
  rw [h3, List.append_nil, List.reverse_reverse]

theorem tokenRoot_dot (R f : String) (hR : ∀ c ∈ R.toList, c ≠ '.')
    (hf : ∀ c ∈ f.toList, c ≠ '.') : tokenRoot (R ++ "." ++ f) = R := by
  unfold tokenRoot
  rw [splitDot_token R f hR hf]
  exact str_mk_toList R

theorem tokenField_dot (R f : String) (hR : ∀ c ∈ R.toList, c ≠ '.')
    (hf : ∀ c ∈ f.toList, c ≠ '.') : tokenField (R ++ "." ++ f) = f := by
  unfold tokenField
  rw [splitDot_token R f hR hf]
  exact str_mk_toList f

theorem tokenParts_dot (R f : String) (hR : ∀ c ∈ R.toList, c ≠ '.')
    (hf : ∀ c ∈ f.toList, c ≠ '.') : tokenParts (R ++ "." ++ f) = 2 := by
  unfold tokenParts
  rw [splitDot_token R f hR hf]
  rfl

theorem token_ne_star (R f : String) : R ++ "." ++ f ≠ "*" := by
  intro h
  have hm : '.' ∈ (R ++ "." ++ f).toList := by
    rw [str_toList_append, str_toList_append]
    exact List.mem_append.mpr (Or.inl (List.mem_append.mpr (Or.inr (by decide))))
  rw [h] at hm
  simp at hm

theorem rootFields_single (R f : String) (hR : ∀ c ∈ R.toList, c ≠ '.')
    (hf : ∀ c ∈ f.toList, c ≠ '.') : rootFields [R ++ "." ++ f] R = [f] := by
  unfold rootFields
  rw [List.filter_cons_of_pos (by
      simp only [decide_eq_true_eq]
      exact tokenRoot_dot R f hR hf), List.filter_nil, List.map_cons, List.map_nil,
    tokenField_dot R f hR hf]

theorem filterImported_field (env : ImpEnv) (R f : String)
    (hR : ∀ c ∈ R.toList, c ≠ '.') (hf : ∀ c ∈ f.toList, c ≠ '.') (hfs : f ≠ "*")
    (typeDefIds : List Nat) (allDefIds : List (List Nat)) (store : List Definition)
    (id0 : Nat) (ifs : List String) (ds : List DirectiveNode) (flds : List FieldDefNode)
    (hfind : typeDefIds.find? (fun id => (getDef store id).uniqKey = some R) = some id0)
    (hdef : getDef store id0 = Definition.objectTypeDef R ifs ds flds) :
    (filterImportedDefinitionsM env [R ++ "." ++ f] typeDefIds allDefIds false store).1 =
      setDef store id0
        (Definition.objectTypeDef R ifs ds (flds.filter (fun fl => fl.name = f))) := by
  unfold filterImportedDefinitionsM
  rw [if_neg (by
    intro hc
    exact token_ne_star R f (List.mem_singleton.mp ((str_contains_iff _ _).mp hc)).symm)]
  have hfil : [R ++ "." ++ f].filter (fun i => decide (tokenParts i > 1)) = [R ++ "." ++ f] := by
    rw [List.filter_cons_of_pos (by
      simp only [decide_eq_true_eq]
      rw [tokenParts_dot R f hR hf]
      omega), List.filter_nil]
  rw [hfil]
  have hmap : [R ++ "." ++ f].map tokenRoot = [R] := by
    rw [List.map_cons, List.map_nil, tokenRoot_dot R f hR hf]
  rw [hmap]
  rw [show dedupFirst [R] = [R] from rfl]
  rw [List.foldl_cons, List.foldl_nil]
  show fieldScopeStep env false typeDefIds [R ++ "." ++ f] store R = _
  unfold fieldScopeStep
  rw [hfind]
  simp only []
  rw [rootFields_single R f hR hf]
  rw [if_pos (by
    constructor
    · rw [hdef]
      rfl
    · intro hc
      exact hfs (List.mem_singleton.mp ((str_contains_iff _ _).mp hc)).symm)]
  rw [hdef]
  unfold maybeSort
  rw [if_neg Bool.false_ne_true]
  simp only [filterFieldsOf]
  congr 2
  apply List.filter_congr
  intro fl _
  show ([f].contains fl.name || ([f] : List String).contains "*") = decide (fl.name = f)
  have h4 : (([f] : List String).contains "*") = false := by
    cases hc : ([f] : List String).contains "*" with
    | false => rfl
    | true =>
      exact absurd (List.mem_singleton.mp ((str_contains_iff _ _).mp hc)).symm hfs
  cases hq : decide (fl.name = f) with
  | true =>
    have h2 := decide_eq_true_eq.mp hq
    rw [h4, h2]
    simp
  | false =>
    have h2 := of_decide_eq_false hq
    have h3 : ([f].contains fl.name) = false := by
      cases hc : [f].contains fl.name with
      | false => rfl
      | true => exact absurd (List.mem_singleton.mp ((str_contains_iff _ _).mp hc)) h2
    rw [h3, h4]
    rfl

theorem getDef_lt_of_obj (store : List Definition) (id0 : Nat) (R : String)
    (ifs : List String) (ds : List DirectiveNode) (flds : List FieldDefNode)
    (hdef : getDef store id0 = Definition.objectTypeDef R ifs ds flds) :
    id0 < store.length := by
  by_contra h
  push_neg at h
  unfold getDef at hdef
  rw [List.getD_eq_getElem?_getD, List.getElem?_eq_none h] at hdef
  exact Definition.noConfusion hdef

theorem getDef_set_self (store : List Definition) (id0 : Nat) (d : Definition)
    (h : id0 < store.length) : getDef (setDef store id0 d) id0 = d := by
  unfold getDef setDef
  rw [List.getD_eq_getElem?_getD, List.getElem?_set_self]
  · rfl
  · exact h

theorem preapreRawModulesM_eq (env : ImpEnv) (imports : List String) (src : ImpSource)
    (srt : Bool) (st : ImpState) (ms : List (List String × String))
    (hp : parseSDL src.rawSDL = Except.ok ms) :
    preapreRawModulesM env imports src srt st = Except.ok
      ({ st with
          store := (filterImportedDefinitionsM env imports src.docIds
            (st.allDefs ++ [src.docIds]) srt st.store).1,
          allDefs := st.allDefs ++ [src.docIds],
          typeDefs := st.typeDefs ++ [(filterImportedDefinitionsM env imports src.docIds
            (st.allDefs ++ [src.docIds]) srt st.store).2] },
        ms.map (fun m => ⟨m.2, m.1⟩)) := by
  unfold preapreRawModulesM
  rw [hp]
  rfl

/-- C10: a field-scoped import token `Type.field` (with no `Type.*` token)
makes `filterImportedDefinitions` mutate the matched definition node in
place, replacing its field list with only the requested fields; since
`preapreRawModules` pushes that very node list onto the `allDefinitions`
accumulator before filtering, the pushed "unfiltered" entry sees the same
mutation: reading the matched node through the store after the call yields
only the requested fields. -/
theorem preapreRawModules_field_scope (env : ImpEnv) (R f : String)
    (hR : ∀ c ∈ R.toList, c ≠ '.') (hf : ∀ c ∈ f.toList, c ≠ '.') (hfs : f ≠ "*")
    (src : ImpSource) (st st' : ImpState) (mods : List RawModule)
    (id0 : Nat) (ifs : List String) (ds : List DirectiveNode) (flds : List FieldDefNode)
    (hfind : src.docIds.find? (fun id => (getDef st.store id).uniqKey = some R) = some id0)
    (hdef : getDef st.store id0 = Definition.objectTypeDef R ifs ds flds)
    (hrun : preapreRawModulesM env [R ++ "." ++ f] src false st = Except.ok (st', mods)) :
    st'.allDefs = st.allDefs ++ [src.docIds] ∧ id0 ∈ src.docIds ∧
    getDef st'.store id0 =
      Definition.objectTypeDef R ifs ds (flds.filter (fun fl => fl.name = f)) := by
  have hfr := filterImported_field env R f hR hf hfs src.docIds
    (st.allDefs ++ [src.docIds]) st.store id0 ifs ds flds hfind hdef
  cases hpe : parseSDL src.rawSDL with
  | error e =>
    have hbad : preapreRawModulesM env [R ++ "." ++ f] src false st = Except.error e := by
      unfold preapreRawModulesM
      rw [hpe]
      rfl
    rw [hbad] at hrun
    exact Except.noConfusion hrun
  | ok ms =>
    have heq := preapreRawModulesM_eq env [R ++ "." ++ f] src false st ms hpe
    rw [heq] at hrun
    injection hrun with h
    have hst : _ = st' := congrArg Prod.fst h
    subst hst
    refine ⟨rfl, List.mem_of_find?_eq_some hfind, ?_⟩
    show getDef (filterImportedDefinitionsM env [R ++ "." ++ f] src.docIds
      (st.allDefs ++ [src.docIds]) false st.store).1 id0 = _
    rw [hfr]
    exact getDef_set_self st.store id0 _
      (getDef_lt_of_obj st.store id0 R ifs ds flds hdef)

def fldX : FieldDefNode := ⟨"x", [], TypeNode.named "X", []⟩
def fldY : FieldDefNode := ⟨"y", [], TypeNode.named "Y", []⟩
def defTypeT : Definition := Definition.objectTypeDef "T" [] [] [fldX, fldY]
def srcT : ImpSource := ⟨"a.graphql", "", [0]⟩
def stTin : ImpState := ⟨[defTypeT], [], [], []⟩
def stTout : ImpState :=
  ⟨[Definition.objectTypeDef "T" [] [] [fldX]], [[0]], [[0]], []⟩

theorem preapreRawModules_field_scope_witness :
    stTout.allDefs = stTin.allDefs ++ [srcT.docIds] ∧ (0 : Nat) ∈ srcT.docIds ∧
    getDef stTout.store 0 = Definition.objectTypeDef "T" [] [] [fldX] :=
  preapreRawModules_field_scope envAB "T" "x" (by decide) (by decide) (by decide)
    srcT stTin stTout [] 0 [] [] [fldX, fldY] (by rfl) (by rfl) (by rfl)

/-- A (partial) `Source` record as threaded through `collectSources`,
`parseSource` and `prepareResult`: a location, and the optional `rawSDL`,
`document` (its definition list) and `schema` (an opaque schema object,
named by a string id) fields. -/
structure SourceRec where
  location : String
  rawSDL : Option String
  document : Option (List Definition)
  schema : Option String
  deriving DecidableEq

/-- The shapes a per-pointer custom loader's result can take, as
discriminated by `addResultOfCustomLoader`: a `GraphQLSchema` object, a
parsed document (`result.kind === Kind.DOCUMENT`), a `{document, ...}`
partial source, or a falsy / unrecognised value (which adds nothing). -/
inductive LoaderResult where
  | schemaRes (s : String)
  | documentRes (defs : List Definition)
  | partialRes (defs : List Definition) (raw : Option String)
  | nullRes
  deriving DecidableEq

/-- A thunk pushed onto the collection queue: a document-string parse, a
custom-loader call (per-pointer or glob-phase), or the fallback
`loadFile` chain. -/
inductive QAct where
  | qdoc (p : String)
  | qcustom (p : String) (globPhase : Bool)
  | qfallback (p : String)
  deriving DecidableEq

/-- The externals of the source-collection and parsing pipeline:
`isDocumentString`, `parseGraphQLSDL`, `is-glob` (after `unixify`), the
presence and behaviour of per-pointer custom loaders and of the glob-phase
loader option, `globby`, the fallback `loadFile` loader chain on a cache
miss, `fixSchemaAst`, `printSchemaWithDirectives`, `parse` and
`printWithComments`.  The two `delay` fields drive the asynchronous
execution model only: they give the number of event-loop rounds each
queued collection thunk (`delay`) and each `parseSource` body (`pdelay`)
spends awaiting its I/O before its effects land, determining the
completion order of the concurrently started promises. -/
structure LoadEnv where
  isDocStr : String → Bool
  docStrSource : String → SourceRec
  isGlobP : String → Bool
  hasLoader : String → Bool
  runLoader : String → LoaderResult
  globHasLoader : Bool
  runGlobLoader : String → LoaderResult
  globMatches : List String → List String
  fallbackLoad : String → Option SourceRec
  fixSchema : String → String
  printSchema : String → String
  parseDoc : String → List Definition
  printDoc : List Definition → String
  delay : QAct → Nat
  pdelay : SourceRec → Nat

/-- The options consulted by the pipeline: `sort`, `filterKinds` (`[]`
when absent), the two graphql-import switches, the initial pointer cache,
and the recursion fuel for the import subsystem (a model artifact). -/
structure LoadOptions where
  sortOpt : Bool
  filterKinds : List String
  forceGraphQLImport : Bool
  skipGraphQLImport : Bool
  cache0 : List (String × SourceRec)
  fuel : Nat

/-- The two accumulators mutated by `createHelpers`' `addSource`:
`sources` and `options.cache`. -/
structure SourcesState where
  sources : List SourceRec
  cache : List (String × SourceRec)
  deriving DecidableEq

/-- `addSource`: push the source, and cache it under its pointer unless
`noCache` was passed. -/
def addSourceM (noCache : Bool) (pointer : String) (src : SourceRec)
    (st : SourcesState) : SourcesState :=
  ⟨st.sources ++ [src],
   if noCache then st.cache else setAssoc st.cache pointer src⟩

/-- `addResultOfCustomLoader`: the schema branch passes `noCache: true`
and re-parses the printed schema into a document; the document and
partial branches pass no `noCache` flag. -/
def addResultOfCustomLoaderM (env : LoadEnv) (pointer : String)
    (r : LoaderResult) (st : SourcesState) : SourcesState :=
  match r with
  | .schemaRes s =>
    addSourceM true pointer ⟨pointer, none, some (env.parseDoc (env.printSchema s)), some s⟩ st
  | .documentRes defs => addSourceM false pointer ⟨pointer, none, some defs, none⟩ st
  | .partialRes defs raw => addSourceM false pointer ⟨pointer, raw, some defs, none⟩ st
  | .nullRes => st

/-- The per-pointer pass of `collectSources`: the
`[collectDocumentString, collectGlob, collectCustomLoader,
collectFallback]` stack queues one action per pointer (globs are
collected aside instead of queued). -/
def collectPhase (env : LoadEnv) (pointers : List String) :
    List QAct × List String :=
  pointers.foldl (fun acc p =>
    if env.isDocStr p then (acc.1 ++ [QAct.qdoc p], acc.2)
    else if env.isGlobP p then (acc.1, acc.2 ++ [p])
    else if env.hasLoader p then (acc.1 ++ [QAct.qcustom p false], acc.2)
    else (acc.1 ++ [QAct.qfallback p], acc.2)) ([], [])

/-- The glob pass: expand the collected globs and queue the
`[collectCustomLoader, collectFallback]` stack per matched path, under
the merged glob options. -/
def globActs (env : LoadEnv) (globs : List String) : List QAct :=
  if globs.isEmpty then []
  else (env.globMatches globs).map (fun p =>
    if env.globHasLoader then QAct.qcustom p true else QAct.qfallback p)

/-- Run one queued thunk.  The fallback thunk is `loadFileSync` under
`collectFallback`: a cache hit is returned and re-added as a source; on a
miss the loader chain's result (when defined) is added (and cached). -/
def runQAct (env : LoadEnv) (st : SourcesState) (a : QAct) : SourcesState :=
  match a with
  | .qdoc p => addSourceM false p (env.docStrSource p) st
  | .qcustom p g =>
    addResultOfCustomLoaderM env p (if g then env.runGlobLoader p else env.runLoader p) st
  | .qfallback p =>
    match lookupAssoc st.cache p with
    | some c => addSourceM false p c st
    | none =>
      match env.fallbackLoad p with
      | some s => addSourceM false p s st
      | none => st

/-- `collectSourcesSync`: queue the per-pointer and glob-phase thunks,
then `queue.runAll()` runs them in order against the shared state. -/
def collectSourcesSyncM (env : LoadEnv) (pointers : List String)
    (cache0 : List (String × SourceRec)) : SourcesState :=
  let cp := collectPhase env pointers
  (cp.1 ++ globActs env cp.2).foldl (runQAct env) ⟨[], cache0⟩

/-- The GraphQL `kind` discriminator of a definition node, as compared
against `filterKinds`. -/
def kindNameOf : Definition → String
  | .scalarTypeDef _ _ => "ScalarTypeDefinition"
  | .objectTypeDef _ _ _ _ => "ObjectTypeDefinition"
  | .interfaceTypeDef _ _ _ => "InterfaceTypeDefinition"
  | .unionTypeDef _ _ _ => "UnionTypeDefinition"
  | .enumTypeDef _ _ _ => "EnumTypeDefinition"
  | .inputObjectTypeDef _ _ _ => "InputObjectTypeDefinition"
  | .directiveDef _ _ => "DirectiveDefinition"
  | .schemaDef _ _ => "SchemaDefinition"
  | .operationDef _ _ _ => "OperationDefinition"
  | .fragmentDef _ _ _ => "FragmentDefinition"

/-- `filterKind`: with a nonempty document and a nonempty kind filter,
keep the definitions whose kind is not filtered. -/
def filterKindM (defs : List Definition) (fks : List String) : List Definition :=
  if defs.length ≠ 0 ∧ fks.length > 0 then
    defs.filter (fun d => ¬ fks.contains (kindNameOf d))
  else defs

/-- `isEmptySDL`: every line is blank or a `#` comment after trimming. -/
def isEmptySDLM (sdl : String) : Bool :=
  ((((splitOnChar (Char.ofNat 10) sdl.toList).map trimChars).filter
    (fun l => ¬ (l.length = 0 ∨ ("#".toList).isPrefixOf l))).length = 0)

def toLowerM (c : Char) : Char :=
  if 65 ≤ c.toNat ∧ c.toNat ≤ 90 then Char.ofNat (c.toNat + 32) else c

def isNLChar (c : Char) : Bool := c = Char.ofNat 10 ∨ c = Char.ofNat 13

/-- `needle` occurs as a contiguous run inside `hay`. -/
def isInfixB (needle : List Char) : List Char → Bool
  | [] => needle.isEmpty
  | c :: cs => needle.isPrefixOf (c :: cs) || isInfixB needle cs

/-- The `useGraphQLImport` trigger `/^\#.*import /i.test(rawSDL.trimLeft())`:
after left-trimming, the first character is `#` and `import ` occurs
(case-insensitively) later on that same line. -/
def hasImportTest (s : String) : Bool :=
  match s.toList.dropWhile isWsChar with
  | [] => false
  | c :: rest =>
    c = '#' ∧ isInfixB ("import ".toList)
      ((rest.takeWhile (fun d => ¬ isNLChar d)).map toLowerM)

/-- `parseSchema`: a schema source gets `fixSchemaAst` applied and its
`rawSDL` printed from the fixed schema. -/
def parseSchemaM (env : LoadEnv) (src : SourceRec) : SourceRec :=
  match src.schema with
  | some s =>
    let s2 := env.fixSchema s
    { src with schema := some s2, rawSDL := some (env.printSchema s2) }
  | none => src

/-- `parseRawSDL`: a (truthy) `rawSDL` is parsed into the document, or
into the empty document when it holds only comments and blanks. -/
def parseRawSDLM (env : LoadEnv) (src : SourceRec) : SourceRec :=
  match src.rawSDL with
  | some raw =>
    if raw ≠ "" then
      { src with document := some (if isEmptySDLM raw then [] else env.parseDoc raw) }
    else src
  | none => src

/-- `useKindsFilter` (the no-filter case is the identity because
`filterKind` already returns the document unchanged then). -/
def useKindsFilterM (opts : LoadOptions) (src : SourceRec) : SourceRec :=
  { src with document := some (filterKindM (src.document.getD []) opts.filterKinds) }

/-- `useComments`: a source still lacking a (truthy) `rawSDL` gets one
printed from its document. -/
def useCommentsM (env : LoadEnv) (src : SourceRec) : SourceRec :=
  match src.rawSDL with
  | some raw => if raw ≠ "" then src else { src with rawSDL := some (env.printDoc (src.document.getD [])) }
  | none => { src with rawSDL := some (env.printDoc (src.document.getD [])) }

def impState0 : ImpState := ⟨[], [], [], []⟩

/-- `parseSourceSync`: the prepare / parseSchema / parseRawSDL /
useKindsFilter / useComments / useGraphQLImport / collectValidSources
chain on one partial source, threading the shared import state
(`definitionsCacheForImport` and `options.processedFiles`) and the
growing `validSources` list. -/
def parseSourceSyncM (env : LoadEnv) (ienv : ImpEnv) (opts : LoadOptions)
    (src : SourceRec) (ist : ImpState) (valid : List SourceRec) :
    Except String (ImpState × List SourceRec) :=
  let s2 := parseRawSDLM env (parseSchemaM env src)
  match s2.document with
  | none => Except.ok (ist, valid)
  | some _ =>
    let s4 := useCommentsM env (useKindsFilterM opts s2)
    if opts.forceGraphQLImport ∨
        (¬ opts.skipGraphQLImport ∧ hasImportTest (s4.rawSDL.getD "")) then do
      let docDefs := s4.document.getD []
      let ids := (List.range docDefs.length).map (fun i => i + ist.store.length)
      let r ← processImportSyntaxSyncStM ienv opts.fuel ⟨s4.location, s4.rawSDL.getD "", ids⟩
        opts.sortOpt { ist with store := ist.store ++ docDefs }
      let s5 := { s4 with document := some r.1 }
      Except.ok (r.2, valid ++ (if (s5.document.getD []).length > 0 then [s5] else []))
    else
      Except.ok (ist, valid ++ (if (s4.document.getD []).length > 0 then [s4] else []))

/-- The abbreviated `prepareResult` failure message: it interpolates the
whole pointer list. -/
def renderPtrErr (pointerList : List String) : String :=
  "Unable to find any GraphQL type definitions for the following pointers: " ++
    String.join (pointerList.map (fun p => "- " ++ p ++ " "))

def insertByLoc (s : SourceRec) : List SourceRec → List SourceRec
  | [] => [s]
  | t :: ts => if s.location < t.location then s :: t :: ts else t :: insertByLoc s ts

/-- The `validSources.sort(compareStrings(location))` comparator sort. -/
def sortByLocation (l : List SourceRec) : List SourceRec :=
  l.foldr insertByLoc []

/-- `prepareResult`: throw when pointers were requested but no valid
source was collected (the message naming every pointer), otherwise
return the valid sources, sorted when `options.sort` is set. -/
def prepareResultM (srt : Bool) (pointerList : List String)
    (validSources : List SourceRec) : Except String (List SourceRec) :=
  if pointerList.length > 0 ∧ validSources.length = 0 then
    Except.error (renderPtrErr pointerList)
  else Except.ok (if srt then sortByLocation validSources else validSources)

/-- `loadTypedefsSync`: collect the sources, parse each in order against
the shared import state, then `prepareResult`. -/
def loadTypedefsSyncM (env : LoadEnv) (ienv : ImpEnv) (opts : LoadOptions)
    (pointers : List String) : Except String (List SourceRec) := do
  let ss := collectSourcesSyncM env pointers opts.cache0
  let r ← ss.sources.foldlM
    (fun (acc : ImpState × List SourceRec) s => parseSourceSyncM env ienv opts s acc.1 acc.2)
    (impState0, [])
  prepareResultM opts.sortOpt pointers r.2

/-- A concrete environment: one file pointer resolvable through the
fallback loader chain and one that matches nothing. -/
def envLd : LoadEnv :=
  ⟨fun _ => false, fun p => ⟨p, none, none, none⟩, fun _ => false,
   fun _ => false, fun _ => LoaderResult.nullRes, false,
   fun _ => LoaderResult.nullRes, fun g => g,
   fun p => if p = "good.graphql"
     then some ⟨p, some "type Query { b: B }", none, none⟩ else none,
   id, id, fun _ => [defQuery], fun _ => "", fun _ => 0, fun _ => 0⟩

def optsLd : LoadOptions := ⟨false, [], false, false, [], 3⟩

/-- C5 (corrected): `loadTypedefsSync` fails only when NO requested
pointer produced a valid source (`validSources` empty while pointers were
requested); the single end-of-call error message interpolates the whole
pointer list.  Whenever at least one valid source was collected the call
succeeds, even if other pointers matched nothing. -/
theorem loadTypedefs_unmatched (env : LoadEnv) (ienv : ImpEnv) (opts : LoadOptions)
    (ptrs : List String) (ist : ImpState) (valid : List SourceRec)
    (hrun : (collectSourcesSyncM env ptrs opts.cache0).sources.foldlM
      (fun (acc : ImpState × List SourceRec) s => parseSourceSyncM env ienv opts s acc.1 acc.2)
      (impState0, ([] : List SourceRec)) = Except.ok (ist, valid)) :
    (ptrs ≠ [] → valid = [] →
      loadTypedefsSyncM env ienv opts ptrs = Except.error (renderPtrErr ptrs)) ∧
    (valid ≠ [] →
      loadTypedefsSyncM env ienv opts ptrs =
        Except.ok (if opts.sortOpt then sortByLocation valid else valid)) := by
  have hload : loadTypedefsSyncM env ienv opts ptrs = prepareResultM opts.sortOpt ptrs valid := by
    show ((collectSourcesSyncM env ptrs opts.cache0).sources.foldlM
      (fun (acc : ImpState × List SourceRec) s => parseSourceSyncM env ienv opts s acc.1 acc.2)
      (impState0, ([] : List SourceRec)) >>=
        (fun r => prepareResultM opts.sortOpt ptrs r.2)) = prepareResultM opts.sortOpt ptrs valid
    rw [hrun, Except_ok_bind]
  constructor
  · intro hp hv
    rw [hload, hv]
    unfold prepareResultM
    rw [if_pos ⟨List.length_pos.mpr hp, rfl⟩]
  · intro hv
    rw [hload]
    unfold prepareResultM
    rw [if_neg (fun hc => hv (List.length_eq_zero.mp hc.2))]

theorem loadTypedefs_unmatched_witness :
    loadTypedefsSyncM envLd envAB optsLd ["bad.graphql"] =
      Except.error (renderPtrErr ["bad.graphql"]) :=
  (loadTypedefs_unmatched envLd envAB optsLd ["bad.graphql"] impState0 [] rfl).1
    (by simp) rfl

theorem loadTypedefs_unmatched_cex :
    loadTypedefsSyncM envLd envAB optsLd ["good.graphql", "bad.graphql"] =
      Except.ok [⟨"good.graphql", some "type Query { b: B }", some [defQuery], none⟩] ∧
    ((collectSourcesSyncM envLd ["good.graphql", "bad.graphql"] optsLd.cache0).sources.map
      SourceRec.location).contains "bad.graphql" = false :=
  ⟨rfl, rfl⟩

/-- C7 (corrected): during source collection only the schema branch of
`addResultOfCustomLoader` passes `noCache: true` — a custom loader's
pre-built schema is never cached, but its parsed-document and partial
`{document, ...}` results ARE written to `options.cache` under the
pointer, and a fallback-chain source is cached as claimed. -/
theorem customLoader_cache (env : LoadEnv) (st : SourcesState) (p : String) (g : Bool) :
    (∀ s, (if g then env.runGlobLoader p else env.runLoader p) = LoaderResult.schemaRes s →
      (runQAct env st (QAct.qcustom p g)).cache = st.cache) ∧
    (∀ defs, (if g then env.runGlobLoader p else env.runLoader p) = LoaderResult.documentRes defs →
      lookupAssoc (runQAct env st (QAct.qcustom p g)).cache p =
        some ⟨p, none, some defs, none⟩) ∧
    (∀ defs raw, (if g then env.runGlobLoader p else env.runLoader p) =
        LoaderResult.partialRes defs raw →
      lookupAssoc (runQAct env st (QAct.qcustom p g)).cache p =
        some ⟨p, raw, some defs, none⟩) ∧
    (∀ src, lookupAssoc st.cache p = none → env.fallbackLoad p = some src →
      lookupAssoc (runQAct env st (QAct.qfallback p)).cache p = some src) ∧
    (env.isDocStr p = false → env.isGlobP p = false → env.hasLoader p = true →
      collectSourcesSyncM env [p] st.cache = runQAct env ⟨[], st.cache⟩ (QAct.qcustom p false)) := by
  refine ⟨?_, ?_, ?_, ?_, ?_⟩
  · intro s hs
    show (addResultOfCustomLoaderM env p
      (if g then env.runGlobLoader p else env.runLoader p) st).cache = st.cache
    rw [hs]
    rfl
  · intro defs hs
    show lookupAssoc (addResultOfCustomLoaderM env p
      (if g then env.runGlobLoader p else env.runLoader p) st).cache p = _
    rw [hs]
    exact lookup_setAssoc_self st.cache p _
  · intro defs raw hs
    show lookupAssoc (addResultOfCustomLoaderM env p
      (if g then env.runGlobLoader p else env.runLoader p) st).cache p = _
    rw [hs]
    exact lookup_setAssoc_self st.cache p _
  · intro src h1 h2
    have hr : runQAct env st (QAct.qfallback p) = addSourceM false p src st := by
      show (match lookupAssoc st.cache p with
        | some c => addSourceM false p c st
        | none =>
          match env.fallbackLoad p with
          | some s => addSourceM false p s st
          | none => st) = addSourceM false p src st
      rw [h1, h2]
    rw [hr]
    exact lookup_setAssoc_self st.cache p src
  · intro h1 h2 h3
    have hcp : collectPhase env [p] = ([QAct.qcustom p false], []) := by
      unfold collectPhase
      rw [List.foldl_cons, if_neg (by simp [h1]), if_neg (by simp [h2]), if_pos h3,
        List.foldl_nil]
      rfl
    unfold collectSourcesSyncM
    rw [hcp]
    rfl

/-- A per-pointer custom loader returning a pre-built schema. -/
def envLd7 : LoadEnv :=
  ⟨fun _ => false, fun p => ⟨p, none, none, none⟩, fun _ => false,
   fun p => p = "s.js", fun _ => LoaderResult.schemaRes "S", false,
   fun _ => LoaderResult.nullRes, fun g => g, fun _ => none,
   id, id, fun _ => [], fun _ => "", fun _ => 0, fun _ => 0⟩

/-- A per-pointer custom loader returning a parsed document. -/
def envLd7d : LoadEnv :=
  ⟨fun _ => false, fun p => ⟨p, none, none, none⟩, fun _ => false,
   fun _ => true, fun _ => LoaderResult.documentRes [defQuery], false,
   fun _ => LoaderResult.nullRes, fun g => g, fun _ => none,
   id, id, fun _ => [], fun _ => "", fun _ => 0, fun _ => 0⟩

theorem customLoader_cache_witness :
    (runQAct envLd7 ⟨[], []⟩ (QAct.qcustom "s.js" false)).cache =
      (⟨[], []⟩ : SourcesState).cache :=
  (customLoader_cache envLd7 ⟨[], []⟩ "s.js" false).1 "S" rfl

theorem customLoader_cache_cex :
    lookupAssoc (collectSourcesSyncM envLd7d ["d.graphql"] []).cache "d.graphql" =
      some ⟨"d.graphql", none, some [defQuery], none⟩ := rfl
